import Mathlib

set_option maxRecDepth 8000
set_option maxHeartbeats 10000000

/-!
Verification of the HD-wallet core (BIP-39 mnemonic codec and BIP-32
derivation engine over secp256k1).  The development shallowly embeds the
Rust sources: pure Rust functions become Lean functions on `Nat`/`List Nat`
byte buffers, fallible code returns explicit result types, and external
crates (hash primitives, the curve library, the RNG) are modelled from the
specification as executable Lean definitions.
-/

namespace KmsSpec

/-! ## Byte and word utilities -/

/-- Interpret a big-endian byte list as a natural number. -/
def beBytesToNat (bs : List Nat) : Nat :=
  bs.foldl (fun a b => 256 * a + b) 0

/-- Big-endian byte serialization of `x` with width `len` bytes. -/

def natToBeBytes : Nat -> Nat -> List Nat
  | 0, _ => []
  | len + 1, x => (x / 256 ^ len % 256) :: natToBeBytes len x

/-- Little-endian byte serialization of `x` with width `len` bytes. -/

def natToLeBytes : Nat -> Nat -> List Nat
  | 0, _ => []
  | len + 1, x => (x % 256) :: natToLeBytes len (x / 256)

/-- Interpret a little-endian byte list as a natural number. -/

def leBytesToNat (bs : List Nat) : Nat :=
  bs.foldr (fun b a => 256 * a + b) 0

/-- Truncate to a 32-bit word. -/

def w32 (x : Nat) : Nat := x % 4294967296

/-- Truncate to a 64-bit word. -/

def w64 (x : Nat) : Nat := x % 18446744073709551616

/-- Right rotation of a 32-bit word. -/

def rotr32 (s x : Nat) : Nat := w32 (x / 2 ^ s + x * 2 ^ (32 - s))

/-- Left rotation of a 32-bit word. -/

def rotl32 (s x : Nat) : Nat := w32 (x * 2 ^ s + x / 2 ^ (32 - s))

/-- Right rotation of a 64-bit word. -/

def rotr64 (s x : Nat) : Nat := w64 (x / 2 ^ s + x * 2 ^ (64 - s))

/-- Split a byte list into big-endian 32-bit words (length a multiple of 4). -/

def bytesToW32 : List Nat -> List Nat
  | b0 :: b1 :: b2 :: b3 :: rest => (((b0 * 256 + b1) * 256 + b2) * 256 + b3) :: bytesToW32 rest
  | _ => []

/-- Split a byte list into little-endian 32-bit words (length a multiple of 4). -/

def bytesToW32le : List Nat -> List Nat
  | b0 :: b1 :: b2 :: b3 :: rest => (((b3 * 256 + b2) * 256 + b1) * 256 + b0) :: bytesToW32le rest
  | _ => []

/-- Split a byte list into big-endian 64-bit words (length a multiple of 8). -/

def bytesToW64 : List Nat -> List Nat
  | b0 :: b1 :: b2 :: b3 :: b4 :: b5 :: b6 :: b7 :: rest =>
      (((((((b0 * 256 + b1) * 256 + b2) * 256 + b3) * 256 + b4) * 256 + b5) * 256 + b6) * 256 + b7)
        :: bytesToW64 rest
  | _ => []

/-! ## SHA-256 (modelled from the spec: hash primitives are the external
`sha2` crate; this is the FIPS 180-4 algorithm, executable in Lean). -/

def K256 : List Nat := [1116352408, 1899447441, 3049323471, 3921009573, 961987163, 1508970993, 2453635748, 2870763221, 3624381080, 310598401, 607225278, 1426881987, 1925078388, 2162078206, 2614888103, 3248222580, 3835390401, 4022224774, 264347078, 604807628, 770255983, 1249150122, 1555081692, 1996064986, 2554220882, 2821834349, 2952996808, 3210313671, 3336571891, 3584528711, 113926993, 338241895, 666307205, 773529912, 1294757372, 1396182291, 1695183700, 1986661051, 2177026350, 2456956037, 2730485921, 2820302411, 3259730800, 3345764771, 3516065817, 3600352804, 4094571909, 275423344, 430227734, 506948616, 659060556, 883997877, 958139571, 1322822218, 1537002063, 1747873779, 1955562222, 2024104815, 2227730452, 2361852424, 2428436474, 2756734187, 3204031479, 3329325298]

def H256 : List Nat := [1779033703, 3144134277, 1013904242, 2773480762, 1359893119, 2600822924, 528734635, 1541459225]

def K512 : List Nat := [4794697086780616226, 8158064640168781261, 13096744586834688815, 16840607885511220156, 4131703408338449720, 6480981068601479193, 10538285296894168987, 12329834152419229976, 15566598209576043074, 1334009975649890238, 2608012711638119052, 6128411473006802146, 8268148722764581231, 9286055187155687089, 11230858885718282805, 13951009754708518548, 16472876342353939154, 17275323862435702243, 1135362057144423861, 2597628984639134821, 3308224258029322869, 5365058923640841347, 6679025012923562964, 8573033837759648693, 10970295158949994411, 12119686244451234320, 12683024718118986047, 13788192230050041572, 14330467153632333762, 15395433587784984357, 489312712824947311, 1452737877330783856, 2861767655752347644, 3322285676063803686, 5560940570517711597, 5996557281743188959, 7280758554555802590, 8532644243296465576, 9350256976987008742, 10552545826968843579, 11727347734174303076, 12113106623233404929, 14000437183269869457, 14369950271660146224, 15101387698204529176, 15463397548674623760, 17586052441742319658, 1182934255886127544, 1847814050463011016, 2177327727835720531, 2830643537854262169, 3796741975233480872, 4115178125766777443, 5681478168544905931, 6601373596472566643, 7507060721942968483, 8399075790359081724, 8693463985226723168, 9568029438360202098, 10144078919501101548, 10430055236837252648, 11840083180663258601, 13761210420658862357, 14299343276471374635, 14566680578165727644, 15097957966210449927, 16922976911328602910, 17689382322260857208, 500013540394364858, 748580250866718886, 1242879168328830382, 1977374033974150939, 2944078676154940804, 3659926193048069267, 4368137639120453308, 4836135668995329356, 5532061633213252278, 6448918945643986474, 6902733635092675308, 7801388544844847127]

def H512 : List Nat := [7640891576956012808, 13503953896175478587, 4354685564936845355, 11912009170470909681, 5840696475078001361, 11170449401992604703, 2270897969802886507, 6620516959819538809]

def rmdRL : List Nat := [0, 1, 2, 3, 4, 5, 6, 7, 8, 9, 10, 11, 12, 13, 14, 15, 7, 4, 13, 1, 10, 6, 15, 3, 12, 0, 9, 5, 2, 14, 11, 8, 3, 10, 14, 4, 9, 15, 8, 1, 2, 7, 0, 6, 13, 11, 5, 12, 1, 9, 11, 10, 0, 8, 12, 4, 13, 3, 7, 15, 14, 5, 6, 2, 4, 0, 5, 9, 7, 12, 2, 10, 14, 1, 3, 8, 11, 6, 15, 13]

def rmdRR : List Nat := [5, 14, 7, 0, 9, 2, 11, 4, 13, 6, 15, 8, 1, 10, 3, 12, 6, 11, 3, 7, 0, 13, 5, 10, 14, 15, 8, 12, 4, 9, 1, 2, 15, 5, 1, 3, 7, 14, 6, 9, 11, 8, 12, 2, 10, 0, 4, 13, 8, 6, 4, 1, 3, 11, 15, 0, 5, 12, 2, 13, 9, 7, 10, 14, 12, 15, 10, 4, 1, 5, 8, 7, 6, 2, 13, 14, 0, 3, 9, 11]

def rmdSL : List Nat := [11, 14, 15, 12, 5, 8, 7, 9, 11, 13, 14, 15, 6, 7, 9, 8, 7, 6, 8, 13, 11, 9, 7, 15, 7, 12, 15, 9, 11, 7, 13, 12, 11, 13, 6, 7, 14, 9, 13, 15, 14, 8, 13, 6, 5, 12, 7, 5, 11, 12, 14, 15, 14, 15, 9, 8, 9, 14, 5, 6, 8, 6, 5, 12, 9, 15, 5, 11, 6, 8, 13, 12, 5, 12, 13, 14, 11, 8, 5, 6]

def rmdSR : List Nat := [8, 9, 9, 11, 13, 15, 15, 5, 7, 7, 8, 11, 14, 14, 12, 6, 9, 13, 15, 7, 12, 8, 9, 11, 7, 7, 12, 7, 6, 15, 13, 11, 9, 7, 15, 11, 8, 6, 6, 14, 12, 13, 5, 14, 13, 13, 7, 5, 15, 5, 8, 11, 14, 14, 6, 14, 6, 9, 12, 9, 12, 5, 15, 8, 8, 5, 12, 9, 12, 5, 14, 6, 8, 13, 6, 5, 15, 13, 11, 11]

/-- SHA-256 message padding. -/

def pad256 (msg : List Nat) : List Nat :=
  msg ++ [128] ++ List.replicate ((119 - msg.length % 64) % 64) 0
      ++ natToBeBytes 8 (msg.length * 8)

/-- State of a SHA-256 compression. -/

structure St256 where
  a : Nat
  b : Nat
  c : Nat
  d : Nat
  e : Nat
  f : Nat
  g : Nat
  h : Nat

/-- Extend the 16 message words to the 64-entry schedule (`acc` holds the
words produced so far in reverse order). -/

def sched256 : Nat -> List Nat -> List Nat
  | 0, acc => acc.reverse
  | fuel + 1, acc =>
    let w15 := acc.getD 14 0
    let w2 := acc.getD 1 0
    let s0 := rotr32 7 w15 ^^^ rotr32 18 w15 ^^^ w15 / 2 ^ 3
    let s1 := rotr32 17 w2 ^^^ rotr32 19 w2 ^^^ w2 / 2 ^ 10
    sched256 fuel (w32 (acc.getD 15 0 + s0 + acc.getD 6 0 + s1) :: acc)

/-- One SHA-256 round. -/

def round256 (st : St256) (kw : Nat × Nat) : St256 :=
  let s1 := rotr32 6 st.e ^^^ rotr32 11 st.e ^^^ rotr32 25 st.e
  let ch := (st.e &&& st.f) ^^^ ((4294967295 - st.e) &&& st.g)
  let t1 := w32 (st.h + s1 + ch + kw.1 + kw.2)
  let s0 := rotr32 2 st.a ^^^ rotr32 13 st.a ^^^ rotr32 22 st.a
  let mj := (st.a &&& st.b) ^^^ (st.a &&& st.c) ^^^ (st.b &&& st.c)
  let t2 := w32 (s0 + mj)
  { a := w32 (t1 + t2), b := st.a, c := st.b, d := st.c,
    e := w32 (st.d + t1), f := st.e, g := st.f, h := st.g }

/-- Compress one 64-byte block into the running hash state. -/

def block256 (h : List Nat) (blk : List Nat) : List Nat :=
  let ws := sched256 48 (bytesToW32 blk).reverse
  let st0 : St256 :=
    { a := h.getD 0 0, b := h.getD 1 0, c := h.getD 2 0, d := h.getD 3 0,
      e := h.getD 4 0, f := h.getD 5 0, g := h.getD 6 0, h := h.getD 7 0 }
  let st := (List.zip K256 ws).foldl round256 st0
  [w32 (h.getD 0 0 + st.a), w32 (h.getD 1 0 + st.b), w32 (h.getD 2 0 + st.c),
   w32 (h.getD 3 0 + st.d), w32 (h.getD 4 0 + st.e), w32 (h.getD 5 0 + st.f),
   w32 (h.getD 6 0 + st.g), w32 (h.getD 7 0 + st.h)]

/-- Fold the compression function over consecutive 64-byte blocks. -/

def blocks256 : Nat -> List Nat -> List Nat -> List Nat
  | 0, h, _ => h
  | fuel + 1, h, msg =>
    match msg with
    | [] => h
    | _ => blocks256 fuel (block256 h (msg.take 64)) (msg.drop 64)

/-- SHA-256 of a byte list (32-byte digest). -/

def sha256 (msg : List Nat) : List Nat :=
  let padded := pad256 msg
  (blocks256 (padded.length / 64) H256 padded).foldr (fun wd acc => natToBeBytes 4 wd ++ acc) []

/-! ## SHA-512 and HMAC-SHA-512 (modelled from the spec: the external
`sha2`/`hmac` crates; FIPS 180-4 / RFC 2104, executable in Lean). -/

/-- SHA-512 message padding. -/

def pad512 (msg : List Nat) : List Nat :=
  msg ++ [128] ++ List.replicate ((239 - msg.length % 128) % 128) 0
      ++ natToBeBytes 16 (msg.length * 8)

/-- State of a SHA-512 compression. -/

structure St512 where
  a : Nat
  b : Nat
  c : Nat
  d : Nat
  e : Nat
  f : Nat
  g : Nat
  h : Nat

/-- Extend the 16 message words to the 80-entry schedule. -/

def sched512 : Nat -> List Nat -> List Nat
  | 0, acc => acc.reverse
  | fuel + 1, acc =>
    let w15 := acc.getD 14 0
    let w2 := acc.getD 1 0
    let s0 := rotr64 1 w15 ^^^ rotr64 8 w15 ^^^ w15 / 2 ^ 7
    let s1 := rotr64 19 w2 ^^^ rotr64 61 w2 ^^^ w2 / 2 ^ 6
    sched512 fuel (w64 (acc.getD 15 0 + s0 + acc.getD 6 0 + s1) :: acc)

/-- One SHA-512 round. -/

def round512 (st : St512) (kw : Nat × Nat) : St512 :=
  let s1 := rotr64 14 st.e ^^^ rotr64 18 st.e ^^^ rotr64 41 st.e
  let ch := (st.e &&& st.f) ^^^ ((18446744073709551615 - st.e) &&& st.g)
  let t1 := w64 (st.h + s1 + ch + kw.1 + kw.2)
  let s0 := rotr64 28 st.a ^^^ rotr64 34 st.a ^^^ rotr64 39 st.a
  let mj := (st.a &&& st.b) ^^^ (st.a &&& st.c) ^^^ (st.b &&& st.c)
  let t2 := w64 (s0 + mj)
  { a := w64 (t1 + t2), b := st.a, c := st.b, d := st.c,
    e := w64 (st.d + t1), f := st.e, g := st.f, h := st.g }

/-- Compress one 128-byte block into the running hash state. -/

def block512 (h : List Nat) (blk : List Nat) : List Nat :=
  let ws := sched512 64 (bytesToW64 blk).reverse
  let st0 : St512 :=
    { a := h.getD 0 0, b := h.getD 1 0, c := h.getD 2 0, d := h.getD 3 0,
      e := h.getD 4 0, f := h.getD 5 0, g := h.getD 6 0, h := h.getD 7 0 }
  let st := (List.zip K512 ws).foldl round512 st0
  [w64 (h.getD 0 0 + st.a), w64 (h.getD 1 0 + st.b), w64 (h.getD 2 0 + st.c),
   w64 (h.getD 3 0 + st.d), w64 (h.getD 4 0 + st.e), w64 (h.getD 5 0 + st.f),
   w64 (h.getD 6 0 + st.g), w64 (h.getD 7 0 + st.h)]

/-- Fold the compression function over consecutive 128-byte blocks. -/

def blocks512 : Nat -> List Nat -> List Nat -> List Nat
  | 0, h, _ => h
  | fuel + 1, h, msg =>
    match msg with
    | [] => h
    | _ => blocks512 fuel (block512 h (msg.take 128)) (msg.drop 128)

/-- SHA-512 of a byte list (64-byte digest). -/

def sha512 (msg : List Nat) : List Nat :=
  let padded := pad512 msg
  (blocks512 (padded.length / 128) H512 padded).foldr (fun wd acc => natToBeBytes 8 wd ++ acc) []

/-- HMAC-SHA-512 with a key of at most 128 bytes (the only case the core
uses: chain codes and the fixed string Bitcoin seed). -/

def hmacSha512 (key msg : List Nat) : List Nat :=
  let kpad := key ++ List.replicate (128 - key.length) 0
  let ipad := kpad.map (fun b => b ^^^ 54)
  let opad := kpad.map (fun b => b ^^^ 92)
  sha512 (opad ++ sha512 (ipad ++ msg))

/-! ## RIPEMD-160 (modelled from the spec: the external `ripemd` crate;
the Dobbertin-Bosselaers-Preneel algorithm, executable in Lean). -/

/-- The RIPEMD-160 selection function for round `j`. -/

def rmdF (j x y z : Nat) : Nat :=
  if j < 16 then x ^^^ y ^^^ z
  else if j < 32 then (x &&& y) ||| ((4294967295 - x) &&& z)
  else if j < 48 then (x ||| (4294967295 - y)) ^^^ z
  else if j < 64 then (x &&& z) ||| (y &&& (4294967295 - z))
  else x ^^^ (y ||| (4294967295 - z))

/-- Left-lane round constants. -/

def rmdKL (j : Nat) : Nat :=
  if j < 16 then 0 else if j < 32 then 1518500249 else if j < 48 then 1859775393
  else if j < 64 then 2400959708 else 2840853838

/-- Right-lane round constants. -/

def rmdKR (j : Nat) : Nat :=
  if j < 16 then 1352829926 else if j < 32 then 1548603684 else if j < 48 then 1836072691
  else if j < 64 then 2053994217 else 0

/-- The ten-word state of the two RIPEMD-160 lanes. -/

structure StRmd where
  al : Nat
  bl : Nat
  cl : Nat
  dl : Nat
  el : Nat
  ar : Nat
  br : Nat
  cr : Nat
  dr : Nat
  er : Nat

/-- One double round (left and right lanes) of RIPEMD-160 on block words `X`. -/

def rmdRound (X : List Nat) (st : StRmd) (j : Nat) : StRmd :=
  let tl := w32 (rotl32 (rmdSL.getD j 0)
      (w32 (st.al + rmdF j st.bl st.cl st.dl + X.getD (rmdRL.getD j 0) 0 + rmdKL j)) + st.el)
  let tr := w32 (rotl32 (rmdSR.getD j 0)
      (w32 (st.ar + rmdF (79 - j) st.br st.cr st.dr + X.getD (rmdRR.getD j 0) 0 + rmdKR j)) + st.er)
  { al := st.el, bl := tl, cl := st.bl, dl := rotl32 10 st.cl, el := st.dl,
    ar := st.er, br := tr, cr := st.br, dr := rotl32 10 st.cr, er := st.dr }

/-- Compress one 64-byte block into the RIPEMD-160 state. -/

def blockRmd (h : List Nat) (blk : List Nat) : List Nat :=
  let X := bytesToW32le blk
  let h0 := h.getD 0 0
  let h1 := h.getD 1 0
  let h2 := h.getD 2 0
  let h3 := h.getD 3 0
  let h4 := h.getD 4 0
  let st0 : StRmd := { al := h0, bl := h1, cl := h2, dl := h3, el := h4,
                       ar := h0, br := h1, cr := h2, dr := h3, er := h4 }
  let st := (List.range 80).foldl (rmdRound X) st0
  [w32 (h1 + st.cl + st.dr), w32 (h2 + st.dl + st.er), w32 (h3 + st.el + st.ar),
   w32 (h4 + st.al + st.br), w32 (h0 + st.bl + st.cr)]

/-- Fold the RIPEMD-160 compression over consecutive 64-byte blocks. -/

def blocksRmd : Nat -> List Nat -> List Nat -> List Nat
  | 0, h, _ => h
  | fuel + 1, h, msg =>
    match msg with
    | [] => h
    | _ => blocksRmd fuel (blockRmd h (msg.take 64)) (msg.drop 64)

/-- RIPEMD-160 of a byte list (20-byte digest); the length field is
little-endian, unlike SHA-256. -/

def ripemd160 (msg : List Nat) : List Nat :=
  let padded := msg ++ [128] ++ List.replicate ((119 - msg.length % 64) % 64) 0
      ++ natToLeBytes 8 (msg.length * 8)
  (blocksRmd (padded.length / 64) [1732584193, 4023233417, 2562383102, 271733878, 3285377520]
      padded).foldr (fun wd acc => natToLeBytes 4 wd ++ acc) []

/-! ## Base58Check (modelled from the spec section 4.5: the external
base58 codec with the Bitcoin alphabet). -/

/-- The Bitcoin Base58 alphabet. -/

def b58Alphabet : List Char :=
  [ '1', '2', '3', '4', '5', '6', '7', '8', '9',
    'A', 'B', 'C', 'D', 'E', 'F', 'G', 'H', 'J', 'K', 'L', 'M', 'N',
    'P', 'Q', 'R', 'S', 'T', 'U', 'V', 'W', 'X', 'Y', 'Z',
    'a', 'b', 'c', 'd', 'e', 'f', 'g', 'h', 'i', 'j', 'k', 'm', 'n', 'o',
    'p', 'q', 'r', 's', 't', 'u', 'v', 'w', 'x', 'y', 'z' ]

/-- Base58 digits of `x`, most significant first (`fuel` bounds recursion). -/

def b58Digits : Nat -> Nat -> List Char -> List Char
  | 0, _, acc => acc
  | fuel + 1, x, acc =>
    if x = 0 then acc
    else b58Digits fuel (x / 58) (b58Alphabet.getD (x % 58) '1' :: acc)

/-- Base58 rendering of a byte string: leading zero bytes map to the digit
one, the rest encodes as a big-endian base-58 number. -/

def base58Encode (payload : List Nat) : List Char :=
  let lead := (payload.takeWhile (fun b => b = 0)).map (fun _ => '1')
  lead ++ b58Digits (2 * payload.length) (beBytesToNat payload) []

/-- Base58Check: append the first four bytes of the double SHA-256 of the
payload, then Base58-encode. -/

def base58Check (payload : List Nat) : List Char :=
  base58Encode (payload ++ (sha256 (sha256 payload)).take 4)

/-! ## secp256k1 (modelled from the spec: the external `libsecp256k1`
crate; affine/Jacobian arithmetic over the standard curve parameters). -/

/-- The secp256k1 field modulus. -/

def secpP : Nat :=
  115792089237316195423570985008687907853269984665640564039457584007908834671663

/-- The order of the secp256k1 generator group. -/

def secpN : Nat :=
  115792089237316195423570985008687907852837564279074904382605163141518161494337

/-- x-coordinate of the generator. -/

def secpGx : Nat :=
  55066263022277343669578718895168534326250603453777594175500187360389116729240

/-- y-coordinate of the generator. -/

def secpGy : Nat :=
  32670510020758816978083085130507043184471273380659243275938904335757337482424

/-- MSB-first bits of `x` with width `w`. -/

def natBits : Nat -> Nat -> List Bool
  | 0, _ => []
  | w + 1, x => x.testBit w :: natBits w x

/-- Square-and-multiply exponentiation modulo the field prime, processing
the 256 exponent bits most-significant first. -/

def fpow (a e : Nat) : Nat :=
  (natBits 256 e).foldl
    (fun acc bit => let s := acc * acc % secpP; if bit then s * a % secpP else s) 1

/-- Inverse in the secp256k1 base field (via Fermat). -/

def finv (a : Nat) : Nat := fpow a (secpP - 2)

/-- Subtraction modulo the field prime. -/

def fsub (a b : Nat) : Nat := (a + secpP - b % secpP) % secpP

/-- A Jacobian-coordinate point; `z = 0` encodes the point at infinity. -/

structure Jac where
  x : Nat
  y : Nat
  z : Nat

/-- An affine point on the curve. -/

structure Aff where
  x : Nat
  y : Nat
  deriving DecidableEq, Repr

/-- Jacobian point doubling on `y^2 = x^3 + 7`. -/

def jacDouble (P : Jac) : Jac :=
  if P.z = 0 then P
  else if P.y = 0 then { x := 1, y := 1, z := 0 }
  else
    let ysq := P.y * P.y % secpP
    let s := 4 * P.x * ysq % secpP
    let m := 3 * P.x * P.x % secpP
    let x3 := fsub (m * m % secpP) (2 * s)
    let y3 := fsub (m * fsub s x3 % secpP) (8 * ysq * ysq % secpP)
    let z3 := 2 * P.y * P.z % secpP
    { x := x3, y := y3, z := z3 }

/-- Mixed addition of a Jacobian point and an affine point. -/

def jacAddAff (P : Jac) (Q : Aff) : Jac :=
  if P.z = 0 then { x := Q.x % secpP, y := Q.y % secpP, z := 1 }
  else
    let z1z1 := P.z * P.z % secpP
    let u2 := Q.x * z1z1 % secpP
    let s2 := Q.y * P.z % secpP * z1z1 % secpP
    let h := fsub u2 P.x
    let r := fsub s2 P.y
    if h = 0 then
      if r = 0 then jacDouble P else { x := 1, y := 1, z := 0 }
    else
      let hh := h * h % secpP
      let hhh := h * hh % secpP
      let v := P.x * hh % secpP
      let x3 := fsub (fsub (r * r % secpP) hhh) (2 * v)
      let y3 := fsub (r * fsub v x3 % secpP) (P.y * hhh % secpP)
      let z3 := P.z * h % secpP
      { x := x3, y := y3, z := z3 }

/-- Convert a Jacobian point to affine; `none` is the point at infinity. -/

def jacToAff (P : Jac) : Option Aff :=
  if P.z = 0 then none
  else
    let zi := finv P.z
    let zi2 := zi * zi % secpP
    some { x := P.x * zi2 % secpP, y := P.y * zi2 % secpP * zi % secpP }

/-- Scalar multiplication `k * Q` by double-and-add over 256 bits. -/

def scalarMulJac (k : Nat) (Q : Aff) : Jac :=
  (natBits 256 k).foldl
    (fun R bit => if bit then jacAddAff (jacDouble R) Q else jacDouble R)
    { x := 1, y := 1, z := 0 }

/-- `k * G` in affine coordinates (`none` when `k` is a multiple of the order). -/

def scalarBaseMul (k : Nat) : Option Aff :=
  jacToAff (scalarMulJac k { x := secpGx, y := secpGy })

/-- Compressed SEC1 serialization of an affine point (33 bytes). -/

def serCompressed (P : Aff) : List Nat :=
  (2 + P.y % 2) :: natToBeBytes 32 P.x

/-! ## The libsecp256k1 key API (modelled from the spec section 6:
`parse_secret`, `tweak_add_secret`, `tweak_add_public`,
`public_from_secret`, `serialize_public_compressed`). -/

/-- BIP-32 error kinds (spec section 7). -/

inductive Bip32Error where
  | crypto
  | maxDepthExceeded
  | cannotDeriveFromHardenedChild
  | decode
  deriving DecidableEq, Repr

/-- Outcome of a Rust call that can return `Ok`, return `Err`, or panic. -/

inductive DResult (A : Type) where
  | ok (a : A)
  | fail (e : Bip32Error)
  | crash
  deriving Repr, DecidableEq

/-- Modelled from the spec: `libsecp256k1::SecretKey::parse` accepts a
32-byte scalar iff it is nonzero and below the group order. -/

def secretKeyParse (bytes : List Nat) : DResult Nat :=
  let s := beBytesToNat bytes
  if 0 < s ∧ s < secpN then .ok s else .fail .crypto

/-- Modelled from the spec: `SecretKey::tweak_add_assign` computes
`(s + t) mod n` and fails iff the result is the zero scalar. -/

def secretTweakAdd (s t : Nat) : DResult Nat :=
  let v := (s + t) % secpN
  if v = 0 then .fail .crypto else .ok v

/-- Modelled from the spec: `PublicKey::from_secret_key` is scalar-times-
generator (total on valid scalars). -/

def publicFromSecret (s : Nat) : Aff :=
  (scalarBaseMul s).getD { x := 0, y := 0 }

/-- Modelled from the spec: `PublicKey::tweak_add_assign` computes
`P + t * G` and fails iff the sum is the point at infinity. -/

def publicTweakAdd (P : Aff) (t : Nat) : DResult Aff :=
  match jacToAff (jacAddAff (scalarMulJac t { x := secpGx, y := secpGy }) P) with
  | some R => .ok R
  | none => .fail .crypto

/-! ## The `PrivateKey`/`PublicKey` trait impls for libsecp256k1 types
(src/bip32/private_key.rs and src/bip32/public_key.rs). -/

/-- `<libsecp256k1::SecretKey as PrivateKey>::from_bytes`. -/

def secpSecretFromBytes (bytes : List Nat) : DResult Nat :=
  match secretKeyParse bytes with
  | .ok sk => .ok sk
  | _ => .fail .crypto

/-- `<libsecp256k1::SecretKey as PrivateKey>::derive_child`: the source
calls `SecretKey::parse(&other).unwrap()`, so an invalid tweak (zero or
not below the group order) panics instead of returning an error; a zero
derived scalar surfaces as `Error::Crypto`. -/

def secpSecretDeriveChild (sk : Nat) (other : List Nat) : DResult Nat :=
  match secretKeyParse other with
  | .ok t =>
    match secretTweakAdd sk t with
    | .ok v => .ok v
    | _ => .fail .crypto
  | _ => .crash

/-- `<libsecp256k1::PublicKey as PublicKey>::derive_child`: same
`.unwrap()` on `SecretKey::parse`, hence a panic on an invalid tweak. -/

def secpPublicDeriveChild (P : Aff) (other : List Nat) : DResult Aff :=
  match secretKeyParse other with
  | .ok t =>
    match publicTweakAdd P t with
    | .ok R => .ok R
    | _ => .fail .crypto
  | _ => .crash

/-! ## The BIP-32 derivation engine, generic over the curve key types as
the source is generic over the `PrivateKey`/`PublicKey` traits.  The
extended-key module itself is modelled from the spec (sections 4.4, 4.5). -/

/-- The capability interface the engine needs: exactly the methods of the
`PrivateKey` and `PublicKey` traits of src/bip32. -/

structure KeyImpl (S P : Type) where
  privFromBytes : List Nat -> DResult S
  privToBytes : S -> List Nat
  privDeriveChild : S -> List Nat -> DResult S
  publicKey : S -> P
  pubToBytes : P -> List Nat
  pubDeriveChild : P -> List Nat -> DResult P

/-- `PublicKey::fingerprint` (src/bip32/public_key.rs): first four bytes
of RIPEMD-160 of SHA-256 of the compressed serialization. -/

def fingerprint {S P : Type} (K : KeyImpl S P) (p : P) : List Nat :=
  (ripemd160 (sha256 (K.pubToBytes p))).take 4

/-- Depth, parent fingerprint, child number and chain code of an extended
key (spec section 3). -/

structure ExtendedKeyAttrs where
  depth : Nat
  parentFingerprint : List Nat
  childNumber : Nat
  chainCode : List Nat
  deriving DecidableEq, Repr

/-- An extended private key: the private scalar plus attributes. -/

structure ExtendedPrivateKey (S : Type) where
  privateKey : S
  attrs : ExtendedKeyAttrs
  deriving DecidableEq, Repr

/-- An extended public key: the public point plus attributes. -/

structure ExtendedPublicKey (P : Type) where
  publicKey : P
  attrs : ExtendedKeyAttrs
  deriving DecidableEq, Repr

/-- A child number is hardened iff bit 31 is set. -/

def isHardened (i : Nat) : Bool := 2147483648 <= i

/-- The ASCII bytes of the HMAC key for master-key generation. -/

def bitcoinSeedKey : List Nat := ("Bitcoin seed".toList).map Char.toNat

/-- Master extended private key from a seed (spec section 4.4):
`I = HMAC-SHA-512(key = Bitcoin seed, msg = seed)`, private scalar from
the left half, chain code the right half. -/

def masterFromSeed {S P : Type} (K : KeyImpl S P) (seed : List Nat) :
    DResult (ExtendedPrivateKey S) :=
  let i := hmacSha512 bitcoinSeedKey seed
  match K.privFromBytes (i.take 32) with
  | .ok sk =>
    .ok { privateKey := sk,
          attrs := { depth := 0, parentFingerprint := [0, 0, 0, 0],
                     childNumber := 0, chainCode := i.drop 32 } }
  | .fail e => .fail e
  | .crash => .crash

/-- CKD-priv (spec section 4.4): one child-derivation step on an extended
private key. -/

def xprvDeriveChild {S P : Type} (K : KeyImpl S P) (xprv : ExtendedPrivateKey S)
    (i : Nat) : DResult (ExtendedPrivateKey S) :=
  if 255 <= xprv.attrs.depth then .fail .maxDepthExceeded
  else
    let data :=
      (if isHardened i then 0 :: K.privToBytes xprv.privateKey
       else K.pubToBytes (K.publicKey xprv.privateKey)) ++ natToBeBytes 4 i
    let hm := hmacSha512 xprv.attrs.chainCode data
    match K.privDeriveChild xprv.privateKey (hm.take 32) with
    | .ok child =>
      .ok { privateKey := child,
            attrs := { depth := xprv.attrs.depth + 1,
                       parentFingerprint := fingerprint K (K.publicKey xprv.privateKey),
                       childNumber := i, chainCode := hm.drop 32 } }
    | .fail e => .fail e
    | .crash => .crash

/-- Derive along a whole path starting from the master key of a seed. -/

def deriveFromPath {S P : Type} (K : KeyImpl S P) (seed : List Nat)
    (path : List Nat) : DResult (ExtendedPrivateKey S) :=
  path.foldl
    (fun r i =>
      match r with
      | .ok xprv => xprvDeriveChild K xprv i
      | e => e)
    (masterFromSeed K seed)

/-- `ExtendedPrivateKey::public_key`: the matching extended public key. -/

def xprvPublicKey {S P : Type} (K : KeyImpl S P) (xprv : ExtendedPrivateKey S) :
    ExtendedPublicKey P :=
  { publicKey := K.publicKey xprv.privateKey, attrs := xprv.attrs }

/-- CKD-pub (spec section 4.4): defined only for non-hardened child
numbers; hardened requests fail with `CannotDeriveFromHardenedChild`. -/

def xpubDeriveChild {S P : Type} (K : KeyImpl S P) (xpub : ExtendedPublicKey P)
    (i : Nat) : DResult (ExtendedPublicKey P) :=
  if isHardened i then .fail .cannotDeriveFromHardenedChild
  else if 255 <= xpub.attrs.depth then .fail .maxDepthExceeded
  else
    let data := K.pubToBytes xpub.publicKey ++ natToBeBytes 4 i
    let hm := hmacSha512 xpub.attrs.chainCode data
    match K.pubDeriveChild xpub.publicKey (hm.take 32) with
    | .ok child =>
      .ok { publicKey := child,
            attrs := { depth := xpub.attrs.depth + 1,
                       parentFingerprint := fingerprint K xpub.publicKey,
                       childNumber := i, chainCode := hm.drop 32 } }
    | .fail e => .fail e
    | .crash => .crash

/-- The version bytes of the mainnet private prefix (`xprv`). -/

def xprvVersion : List Nat := [4, 136, 173, 228]

/-- The version bytes of the mainnet public prefix (`xpub`). -/

def xpubVersion : List Nat := [4, 136, 178, 30]

/-- The 78-byte wire serialization of an extended private key
(spec section 4.5). -/

def serializeXprv {S P : Type} (K : KeyImpl S P) (xprv : ExtendedPrivateKey S) :
    List Nat :=
  xprvVersion ++ [xprv.attrs.depth] ++ xprv.attrs.parentFingerprint
    ++ natToBeBytes 4 xprv.attrs.childNumber ++ xprv.attrs.chainCode
    ++ 0 :: K.privToBytes xprv.privateKey

/-- The 78-byte wire serialization of an extended public key. -/

def serializeXpub {S P : Type} (K : KeyImpl S P) (xpub : ExtendedPublicKey P) :
    List Nat :=
  xpubVersion ++ [xpub.attrs.depth] ++ xpub.attrs.parentFingerprint
    ++ natToBeBytes 4 xpub.attrs.childNumber ++ xpub.attrs.chainCode
    ++ K.pubToBytes xpub.publicKey

/-- `display` of an extended private key: Base58Check of the wire bytes. -/

def xprvDisplay {S P : Type} (K : KeyImpl S P) (xprv : ExtendedPrivateKey S) :
    String :=
  String.mk (base58Check (serializeXprv K xprv))

/-- `display` of an extended public key. -/

def xpubDisplay {S P : Type} (K : KeyImpl S P) (xpub : ExtendedPublicKey P) :
    String :=
  String.mk (base58Check (serializeXpub K xpub))

/-- The libsecp256k1 instantiation of the engine, as selected in
src/bip32/private_key.rs and src/bip32/public_key.rs. -/

def secpImpl : KeyImpl Nat Aff :=
  { privFromBytes := secpSecretFromBytes
    privToBytes := natToBeBytes 32
    privDeriveChild := secpSecretDeriveChild
    publicKey := publicFromSecret
    pubToBytes := serCompressed
    pubDeriveChild := secpPublicDeriveChild }

/-- Mark a child number as hardened (sets bit 31). -/

def hardened (i : Nat) : Nat := 2147483648 + i

/-- The 64-byte seed of spec scenario S3. -/

def c9Seed : List Nat :=
  [255,252,249,246,243,240,237,234,231,228,225,222,219,216,213,210,
   207,204,201,198,195,192,189,186,183,180,177,174,171,168,165,162,
   159,156,153,150,147,144,141,138,135,132,129,126,123,120,117,114,
   111,108,105,102,99,96,93,90,87,84,81,78,75,72,69,66]

def c9Node0 : ExtendedPrivateKey Nat :=
  { privateKey := 33930247958042109970708014072100655327284160110026365553589579189000489692222,
    attrs := { depth := 0, parentFingerprint := [0, 0, 0, 0],
               childNumber := 0, chainCode := [96, 73, 159, 128, 27, 137, 109, 131, 23, 154, 67, 116, 174, 183, 130, 42, 174, 172, 234, 160, 219, 31, 133, 238, 62, 144, 76, 77, 239, 189, 150, 137] } }

def c9Node1 : ExtendedPrivateKey Nat :=
  { privateKey := 77754153632832979924432015519212553919682198675512642684628337080067678830110,
    attrs := { depth := 1, parentFingerprint := [189, 22, 190, 229],
               childNumber := 0, chainCode := [240, 144, 154, 255, 170, 126, 231, 171, 229, 221, 78, 16, 5, 152, 212, 220, 83, 205, 112, 157, 90, 92, 44, 172, 64, 231, 65, 47, 35, 47, 124, 156] } }

def c9Node2 : ExtendedPrivateKey Nat :=
  { privateKey := 61282149077316269533564575833727154486108257110221741837549362698650198634131,
    attrs := { depth := 2, parentFingerprint := [90, 97, 255, 142],
               childNumber := 4294967295, chainCode := [190, 23, 162, 104, 71, 74, 107, 185, 198, 30, 29, 114, 12, 246, 33, 94, 42, 136, 197, 64, 108, 74, 238, 123, 56, 84, 127, 88, 92, 154, 55, 217] } }

def c9Node3 : ExtendedPrivateKey Nat :=
  { privateKey := 50791317622476243479301214550967505063165373184654737597529221745310187758775,
    attrs := { depth := 3, parentFingerprint := [216, 171, 73, 55],
               childNumber := 1, chainCode := [243, 102, 244, 143, 30, 169, 242, 209, 211, 254, 149, 140, 149, 202, 132, 234, 24, 228, 196, 221, 185, 54, 108, 51, 108, 146, 126, 178, 70, 251, 56, 203] } }

def c9Node4 : ExtendedPrivateKey Nat :=
  { privateKey := 109360382487608605698768457287878139829295348092697640245436236019271250831917,
    attrs := { depth := 4, parentFingerprint := [120, 65, 46, 58],
               childNumber := 4294967294, chainCode := [99, 120, 7, 3, 13, 85, 208, 31, 154, 12, 179, 167, 131, 149, 21, 215, 150, 189, 7, 112, 99, 134, 166, 237, 223, 6, 204, 41, 166, 90, 14, 41] } }

def c9Node5 : ExtendedPrivateKey Nat :=
  { privateKey := 84803757082543100002787554713372967409744207650655712888157361372502545509411,
    attrs := { depth := 5, parentFingerprint := [49, 165, 7, 184],
               childNumber := 2, chainCode := [148, 82, 181, 73, 190, 140, 234, 62, 203, 122, 132, 190, 193, 13, 207, 217, 74, 254, 77, 18, 158, 191, 211, 179, 203, 88, 238, 223, 57, 78, 210, 113] } }

def c9Pub0 : Aff := { x := 92177583198369651078012650237376329809196622616143640907636115035502672667815, y := 56007618903221299795442838537477169399092506140195394231153621809959624157777 }

def c9Pub1 : Aff := { x := 114262627324948493521517689555539268749776896697598177926124477919255197455082, y := 46879789207522413961025284349037006334999320309620911691420951481691523216708 }

def c9Pub2 : Aff := { x := 86897873950606939232257918634940480814428713786532688084853685494766142905403, y := 49097076598096616177811712379179221712435683640932575893279517654279520320537 }

def c9Pub3 : Aff := { x := 75907009869165222536820105257922602725721832911796700977845406439432163030457, y := 7398129016230585776342283908527437977407192516092964837531912059293327154825 }

def c9Pub4 : Aff := { x := 95302688516495150045856218803712777630625729415453737648258977278602191766000, y := 107066032617471426557426209773164110897795006188306848728032583161915440114096 }

def c9Pub5 : Aff := { x := 35082833504561977222442266407237501062514495861134385858168191336646986047388, y := 31477671599169482466157390335099137400073584324757460180478941327877913131710 }

def c9Hm1 : List Nat := [96, 227, 115, 156, 194, 195, 149, 11, 124, 77, 127, 50, 204, 80, 62, 19, 185, 150, 208, 247, 164, 86, 35, 208, 169, 20, 225, 239, 167, 248, 17, 224, 240, 144, 154, 255, 170, 126, 231, 171, 229, 221, 78, 16, 5, 152, 212, 220, 83, 205, 112, 157, 90, 92, 44, 172, 64, 231, 65, 47, 35, 47, 124, 156]

def c9Hm2 : List Nat := [219, 149, 45, 1, 226, 160, 134, 166, 9, 128, 101, 157, 123, 111, 248, 134, 145, 214, 155, 161, 66, 66, 222, 143, 245, 37, 203, 237, 143, 184, 49, 182, 190, 23, 162, 104, 71, 74, 107, 185, 198, 30, 29, 114, 12, 246, 33, 94, 42, 136, 197, 64, 108, 74, 238, 123, 56, 84, 127, 88, 92, 154, 55, 217]

def c9Hm3 : List Nat := [232, 206, 102, 90, 107, 55, 252, 249, 250, 251, 174, 127, 163, 71, 56, 225, 154, 168, 237, 211, 201, 138, 213, 246, 135, 235, 61, 78, 137, 37, 119, 101, 243, 102, 244, 143, 30, 169, 242, 209, 211, 254, 149, 140, 149, 202, 132, 234, 24, 228, 196, 221, 185, 54, 108, 51, 108, 146, 126, 178, 70, 251, 56, 203]

def c9Hm4 : List Nat := [129, 124, 234, 124, 96, 170, 17, 236, 25, 115, 231, 219, 235, 91, 135, 24, 45, 34, 81, 111, 47, 177, 34, 238, 151, 70, 231, 233, 150, 95, 197, 118, 99, 120, 7, 3, 13, 85, 208, 31, 154, 12, 179, 167, 131, 149, 21, 215, 150, 189, 7, 112, 99, 134, 166, 237, 223, 6, 204, 41, 166, 90, 14, 41]

def c9Hm5 : List Nat := [201, 181, 113, 76, 18, 244, 79, 13, 244, 202, 247, 106, 85, 118, 112, 223, 235, 67, 16, 189, 125, 177, 147, 182, 55, 11, 90, 213, 204, 222, 131, 55, 148, 82, 181, 73, 190, 140, 234, 62, 203, 122, 132, 190, 193, 13, 207, 217, 74, 254, 77, 18, 158, 191, 211, 179, 203, 88, 238, 223, 57, 78, 210, 113]

def c9Path : List Nat := [0, hardened 2147483647, 1, hardened 2147483646, 2]

abbrev Str := List Char

/-- BIP-39 error kinds (spec section 7; the bip39 error module). -/

inductive ErrorKind where
  | invalidChecksum
  | invalidWordCount
  | invalidWord
  | invalidEntropyLength
  | rng
  deriving DecidableEq, Repr

instance exceptDecEq {E A : Type} [DecidableEq E] [DecidableEq A] :
    DecidableEq (Except E A) := fun a b =>
  match a, b with
  | .ok x, .ok y =>
    if h : x = y then isTrue (by rw [h]) else isFalse (fun hh => by cases hh; exact h rfl)
  | .error x, .error y =>
    if h : x = y then isTrue (by rw [h]) else isFalse (fun hh => by cases hh; exact h rfl)
  | .ok _, .error _ => isFalse (fun hh => by cases hh)
  | .error _, .ok _ => isFalse (fun hh => by cases hh)

/-- Modelled from the spec (section 3): the five mnemonic types. -/

inductive MnemonicType where
  | words12
  | words15
  | words18
  | words21
  | words24
  deriving DecidableEq, Repr

/-- Entropy bits of a mnemonic type. -/

def MnemonicType.entropyBits : MnemonicType -> Nat
  | .words12 => 128
  | .words15 => 160
  | .words18 => 192
  | .words21 => 224
  | .words24 => 256

/-- Checksum bits: `entropy_bits / 32`. -/

def MnemonicType.checksumBits (t : MnemonicType) : Nat := t.entropyBits / 32

/-- Total bits: `entropy_bits + checksum_bits`. -/

def MnemonicType.totalBits (t : MnemonicType) : Nat := t.entropyBits + t.checksumBits

/-- Modelled from the spec: `MnemonicType::for_word_count` accepts the
word counts 11, 12, 15, 18, 21 and 24 (spec section 4.2 lists exactly
these); any other count fails with `InvalidWordCount`.  The spec gives no
entropy size for the count 11, so it is mapped to the nearest variant;
the decoding theorems only ever evaluate past this point at the five
standard counts. -/

def MnemonicType.for_word_count (n : Nat) : Except ErrorKind MnemonicType :=
  if n = 11 then .ok .words12
  else if n = 12 then .ok .words12
  else if n = 15 then .ok .words15
  else if n = 18 then .ok .words18
  else if n = 21 then .ok .words21
  else if n = 24 then .ok .words24
  else .error .invalidWordCount

/-- Modelled from the spec: `MnemonicType::for_key_size` accepts exactly
128, 160, 192, 224 or 256 entropy bits. -/

def MnemonicType.for_key_size (bits : Nat) : Except ErrorKind MnemonicType :=
  if bits = 128 then .ok .words12
  else if bits = 160 then .ok .words15
  else if bits = 192 then .ok .words18
  else if bits = 224 then .ok .words21
  else if bits = 256 then .ok .words24
  else .error .invalidEntropyLength

/-! ### The bit packer (modelled from the spec, section 4.1) -/

/-- Read a bit list MSB-first as a natural number. -/

def bitsToNat (bs : List Bool) : Nat :=
  bs.foldl (fun a b => 2 * a + cond b 1 0) 0

/-- The MSB-first bit stream of a byte list. -/

def bytesToBits (bytes : List Nat) : List Bool :=
  bytes.foldr (fun b acc => natBits 8 b ++ acc) []

/-- The concatenated MSB-first bit stream of a list of 11-bit symbols
(what `BitWriter` accumulates). -/

def symbolsToBits (ws : List Nat) : List Bool :=
  ws.foldr (fun s acc => natBits 11 s ++ acc) []

/-- Split a bit list into `m` groups of `k` bits (the caller chooses
`m` so that the incomplete tail is discarded). -/

def chunksCount (k : Nat) : Nat -> List Bool -> List (List Bool)
  | 0, _ => []
  | m + 1, bs => bs.take k :: chunksCount k m (bs.drop k)

/-- Split a bit list into `m` groups of `k` bits, zero-padding the final
incomplete group (the caller chooses `m` to cover the whole list). -/

def chunksPadCount (k : Nat) : Nat -> List Bool -> List (List Bool)
  | 0, _ => []
  | m + 1, bs =>
    (bs.take k ++ List.replicate (k - bs.length) false) :: chunksPadCount k m (bs.drop k)

/-- The encode direction of the bit packer: the 11-bit symbols of a byte
stream, MSB-first, residual tail discarded (spec section 4.1). -/

def bitsEncode (bytes : List Nat) : List Nat :=
  let stream := bytesToBits bytes
  (chunksCount 11 (stream.length / 11) stream).map bitsToNat

/-- `BitWriter::into_bytes`: the accumulated bit stream as bytes, the
final incomplete byte zero-padded at the low end. -/

def intoBytes (bs : List Bool) : List Nat :=
  (chunksPadCount 8 ((bs.length + 7) / 8) bs).map bitsToNat

/-- The `checksum` helper of the bip39 util module: the top `bits` bits
of a byte. -/

def checksum (source bits : Nat) : Nat := source / 2 ^ (8 - bits)

/-- `sha256_first_byte` of the bip39 crypto module. -/

def sha256_first_byte (bytes : List Nat) : Nat := (sha256 bytes).headD 0

/-! ### Rust string methods used by the mnemonic codec -/

/-- Rust `str::split(" ")`: split at every space, keeping empty pieces. -/

def splitOnSpace : Str -> List Str
  | [] => [[]]
  | c :: rest =>
    if c = ' ' then [] :: splitOnSpace rest
    else
      match splitOnSpace rest with
      | g :: gs => (c :: g) :: gs
      | [] => [[c]]

/-- Split at every Unicode whitespace character, keeping empty pieces. -/

def splitOnWs : Str -> List Str
  | [] => [[]]
  | c :: rest =>
    if c.isWhitespace then [] :: splitOnWs rest
    else
      match splitOnWs rest with
      | g :: gs => (c :: g) :: gs
      | [] => [[c]]

/-- Rust `str::split_whitespace`: the nonempty maximal runs of
non-whitespace characters. -/

def splitWhitespace (s : Str) : List Str :=
  (splitOnWs s).filter (fun t => ! t.isEmpty)

/-- Rust `join(" ")` on a list of words. -/

def joinWords : List Str -> Str
  | [] => []
  | [w] => w
  | w :: ws => w ++ ' ' :: joinWords ws

/-- Modelled from the spec: NFKD normalization comes from the external
unicode-normalization crate; on already-NFKD input (the NFKD-normalized
wordlists and ASCII phrases, the only inputs the development evaluates)
it is the identity. -/

def nfkd (s : Str) : Str := s

/-! ### The wordlist capability (modelled from the spec, sections 2 and 9:
the source is parameterized over a per-language wordlist provider). -/

/-- The wordlist interface: 11-bit index to word and back
(`None` models a word absent from the wordlist). -/

structure Wordlist where
  get_word : Nat -> Str
  get_bits : Str -> Option Nat

/-- A wordlist is well-formed when index-to-word round-trips on the 2048
indices and words are nonempty and free of whitespace (spec section 4.1:
2048 distinct NFKD-normalized entries). -/

def Wordlist.WF (wl : Wordlist) : Prop :=
  (forall i, i < 2048 -> wl.get_bits (wl.get_word i) = some i) /\
  (forall i, i < 2048 ->
    wl.get_word i ≠ [] /\ forall c, c ∈ wl.get_word i -> c.isWhitespace = false)

/-! ### The mnemonic codec (src/bip39/mnemonic.rs) -/

/-- A mnemonic: the canonical phrase and the entropy it encodes (the
language tag is carried by the wordlist parameter). -/

structure Mnemonic where
  phrase : Str
  entropy : List Nat
  deriving DecidableEq, Repr

/-- `Mnemonic::from_entropy_unchecked`: checksum byte is the first byte
of SHA-256 of the entropy; entropy then checksum byte are bit-packed into
11-bit symbols mapped to words joined by single spaces. -/

def from_entropy_unchecked (wl : Wordlist) (entropy : List Nat) : Mnemonic :=
  let checksum_byte := sha256_first_byte entropy
  let words := (bitsEncode (entropy ++ [checksum_byte])).map wl.get_word
  { phrase := joinWords words, entropy := entropy }

/-- `Mnemonic::from_entropy`: validates the entropy size, then packs. -/

def from_entropy (wl : Wordlist) (entropy : List Nat) : Except ErrorKind Mnemonic :=
  match MnemonicType.for_key_size (entropy.length * 8) with
  | .error e => .error e
  | .ok _ => .ok (from_entropy_unchecked wl entropy)

/-- Look up every word of a phrase in the wordlist; a missing word is
`InvalidWord` (the wordmap errors in the source). -/

def lookupWords (wl : Wordlist) : List Str -> Except ErrorKind (List Nat)
  | [] => .ok []
  | w :: ws =>
    match wl.get_bits w with
    | none => .error .invalidWord
    | some b =>
      match lookupWords wl ws with
      | .ok bs => .ok (b :: bs)
      | .error e => .error e

/-- `Mnemonic::phrase_to_entropy`: look up each space-separated word,
concatenate the 11-bit symbols, determine the type from the word count,
split off the entropy bytes, and compare the trailing checksum bits with
the recomputed SHA-256 checksum.  (The source indexes the byte vector at
`entropy_bytes` directly; the index is in bounds at the five standard
word counts, the only counts at which the theorems evaluate this
branch.) -/

def phrase_to_entropy (wl : Wordlist) (phrase : Str) : Except ErrorKind (List Nat) :=
  match lookupWords wl (splitOnSpace phrase) with
  | .error e => .error e
  | .ok symbols =>
    let bits := symbolsToBits symbols
    match MnemonicType.for_word_count (bits.length / 11) with
    | .error e => .error e
    | .ok mtype =>
      let packed := intoBytes bits
      let entropy_bytes := mtype.entropyBits / 8
      let actual_checksum := checksum (packed.getD entropy_bytes 0) mtype.checksumBits
      let entropy := packed.take entropy_bytes
      let checksum_byte := sha256_first_byte entropy
      let expected_checksum := checksum checksum_byte mtype.checksumBits
      if actual_checksum ≠ expected_checksum then .error .invalidChecksum
      else .ok entropy

/-- `Mnemonic::from_phrase`: NFKD-normalize each whitespace-delimited
word, rejoin with single spaces, validate and store. -/

def from_phrase (wl : Wordlist) (phrase : Str) : Except ErrorKind Mnemonic :=
  let normalized := joinWords ((splitWhitespace phrase).map nfkd)
  match phrase_to_entropy wl normalized with
  | .error e => .error e
  | .ok entropy => .ok { phrase := normalized, entropy := entropy }

/-- Modelled from the spec (sections 6 and 9): the RNG capability; a
deterministic byte source or a failed random source. -/

inductive Rng where
  | ok (f : Nat -> Nat)
  | failed

/-- Modelled from the spec: `gen_random_bytes` draws `count` bytes from
the cryptographic RNG and fails if the random source fails. -/

def gen_random_bytes : Rng -> Nat -> Except ErrorKind (List Nat)
  | .ok f, count => .ok ((List.range count).map (fun i => f i % 256))
  | .failed, _ => .error .rng

/-- `Mnemonic::new`: draw `entropy_bits / 8` random bytes and pack them
(the RNG is passed as a capability per spec section 9). -/

def Mnemonic.new (wl : Wordlist) (mtype : MnemonicType) (r : Rng) :
    Except ErrorKind Mnemonic :=
  match gen_random_bytes r (mtype.entropyBits / 8) with
  | .ok entropy => .ok (from_entropy_unchecked wl entropy)
  | .error e => .error e

/-! ## Lemmas about the bit packer -/

def dlogImpl : KeyImpl Nat Nat :=
  { privFromBytes := secpSecretFromBytes
    privToBytes := natToBeBytes 32
    privDeriveChild := fun s other =>
      match secretKeyParse other with
      | .ok t =>
        match secretTweakAdd s t with
        | .ok v => .ok v
        | _ => .fail .crypto
      | _ => .fail .crypto
    publicKey := fun s => s
    pubToBytes := fun s => 2 :: natToBeBytes 32 s
    pubDeriveChild := fun s other =>
      match secretKeyParse other with
      | .ok t =>
        match secretTweakAdd s t with
        | .ok v => .ok v
        | _ => .fail .crypto
      | _ => .fail .crypto }

inductive LibError where
  | invalidInputLength
  deriving DecidableEq, Repr

/-- Modelled from the spec: `libsecp256k1::Message::parse_slice` accepts
exactly 32 bytes and fails with `InvalidInputLength` otherwise. -/

def messageParseSlice (bytes : List Nat) : Except LibError (List Nat) :=
  if bytes.length = 32 then .ok bytes else .error .invalidInputLength

/-- Modelled from the spec: ECDSA signing is an external collaborator
(spec section 1 places it out of scope); it is total on a parsed message
and a valid secret key, and serializes to 64 bytes plus a recovery id. -/

def secpSign (secret : Nat) (msg : List Nat) : List Nat × Nat :=
  (List.replicate 64 ((secret + msg.length) % 256), 0)

/-- `ecdsa_sign` (src/lib.rs): parse the message slice, sign, serialize. -/

def ecdsa_sign (secret : Nat) (bytes : List Nat) : Except LibError (List Nat × Nat) :=
  match messageParseSlice bytes with
  | .error e => .error e
  | .ok msg => .ok (secpSign secret msg)

/-- Claim C10 body: `ecdsa_sign` errors exactly on non-32-byte messages
and otherwise returns a 64-byte signature with a recovery id. -/

def binWordlist : Wordlist :=
  { get_word := fun i => (natBits 11 i).map (fun b => cond b '1' '0')
    get_bits := fun w =>
      if w.length == 11 && w.all (fun c => c == '0' || c == '1')
      then some (bitsToNat (w.map (fun c => c == '1')))
      else none }

def wsRun (r : Str) : Bool := r.all (fun c => c.isWhitespace)

/-- A word token: nonempty and free of whitespace. -/

def wsToken (t : Str) : Bool := !t.isEmpty && t.all (fun c => !c.isWhitespace)

/-- Well-formedness of a token/run alternation: tokens are tokens, runs
are whitespace, and every run before another token is nonempty (else the
two tokens would merge). -/

def goodPairs : List (Str × Str) → Bool
  | [] => true
  | [(t, r)] => wsToken t && wsRun r
  | (t, r) :: rest => wsToken t && wsRun r && !r.isEmpty && goodPairs rest

/-- A string that consists of the given tokens separated by the given
whitespace runs: `lead ++ t1 ++ r1 ++ t2 ++ r2 ++ ...`. -/

def wsInterleave (lead : Str) : List (Str × Str) → Str
  | [] => lead
  | (t, r) :: rest => lead ++ t ++ wsInterleave r rest

def s1Entropy : List Nat :=
  [51, 228, 107, 177, 58, 116, 110, 164, 28, 221, 228, 92, 144, 132, 106, 121]

def dlogX0 : ExtendedPrivateKey Nat :=
  { privateKey := 1,
    attrs := { depth := 0, parentFingerprint := [0, 0, 0, 0], childNumber := 0,
               chainCode := List.replicate 32 0 } }

/-- The child of `dlogX0` at index 0 (values fixed by HMAC-SHA-512). -/

def dlogChild0 : ExtendedPrivateKey Nat :=
  { privateKey := 60042633001405962600269171259960018796492677916433192840114241905473855618215,
    attrs := { depth := 1, parentFingerprint := [224, 27, 6, 185], childNumber := 0,
               chainCode := [254, 78, 107, 167, 69, 62, 30, 216, 156, 86, 4, 192, 176, 225, 102, 79, 104, 44, 12, 34, 133, 114, 144, 230, 1, 243, 100, 150, 69, 49, 230, 252] } }

def dlogPubChild0 : ExtendedPublicKey Nat :=
  { publicKey := dlogChild0.privateKey, attrs := dlogChild0.attrs }

def c4Phrase : Str := joinWords (List.replicate 13 (binWordlist.get_word 0))

def c6Phrase : Str := joinWords ((List.replicate 12 0).map binWordlist.get_word)

def c8Ps1 : List (Str × Str) := [(['0', '1'], [' ']), (['1', '0'], [])]

/-- The same tokens with tab and double-space runs. -/

def c8Ps2 : List (Str × Str) := [(['0', '1'], [' ', ' ']), (['1', '0'], ['\t'])]

theorem xprvDeriveChild_eq {S P : Type} (K : KeyImpl S P) (x : ExtendedPrivateKey S)
    (i : Nat) (pub : P) (hmv : List Nat) (child : S)
    (hd : x.attrs.depth < 255)
    (hpub : K.publicKey x.privateKey = pub)
    (hdata : hmacSha512 x.attrs.chainCode
        ((if isHardened i then 0 :: K.privToBytes x.privateKey else K.pubToBytes pub)
          ++ natToBeBytes 4 i) = hmv)
    (hch : K.privDeriveChild x.privateKey (hmv.take 32) = .ok child) :
    xprvDeriveChild K x i = .ok
      { privateKey := child,
        attrs := { depth := x.attrs.depth + 1,
                   parentFingerprint := fingerprint K pub,
                   childNumber := i, chainCode := hmv.drop 32 } } := by
  simp only [xprvDeriveChild, hpub, hdata, hch]
  rw [if_neg (Nat.not_le.mpr hd)]

theorem c9step1 : xprvDeriveChild secpImpl c9Node0 (0) = .ok c9Node1 := by
  have hpub : secpImpl.publicKey c9Node0.privateKey = c9Pub0 := by decide
  have hdata : hmacSha512 c9Node0.attrs.chainCode
      ((if isHardened (0) then 0 :: secpImpl.privToBytes c9Node0.privateKey
        else secpImpl.pubToBytes c9Pub0) ++ natToBeBytes 4 (0)) = c9Hm1 := by decide
  have hch : secpImpl.privDeriveChild c9Node0.privateKey (c9Hm1.take 32)
      = .ok c9Node1.privateKey := by decide
  have h := xprvDeriveChild_eq secpImpl c9Node0 (0) c9Pub0 c9Hm1 c9Node1.privateKey
    (by decide) hpub hdata hch
  rw [h]
  decide

theorem c9step2 : xprvDeriveChild secpImpl c9Node1 (hardened 2147483647) = .ok c9Node2 := by
  have hpub : secpImpl.publicKey c9Node1.privateKey = c9Pub1 := by decide
  have hdata : hmacSha512 c9Node1.attrs.chainCode
      ((if isHardened (hardened 2147483647) then 0 :: secpImpl.privToBytes c9Node1.privateKey
        else secpImpl.pubToBytes c9Pub1) ++ natToBeBytes 4 (hardened 2147483647)) = c9Hm2 := by decide
  have hch : secpImpl.privDeriveChild c9Node1.privateKey (c9Hm2.take 32)
      = .ok c9Node2.privateKey := by decide
  have h := xprvDeriveChild_eq secpImpl c9Node1 (hardened 2147483647) c9Pub1 c9Hm2 c9Node2.privateKey
    (by decide) hpub hdata hch
  rw [h]
  decide

theorem c9step3 : xprvDeriveChild secpImpl c9Node2 (1) = .ok c9Node3 := by
  have hpub : secpImpl.publicKey c9Node2.privateKey = c9Pub2 := by decide
  have hdata : hmacSha512 c9Node2.attrs.chainCode
      ((if isHardened (1) then 0 :: secpImpl.privToBytes c9Node2.privateKey
        else secpImpl.pubToBytes c9Pub2) ++ natToBeBytes 4 (1)) = c9Hm3 := by decide
  have hch : secpImpl.privDeriveChild c9Node2.privateKey (c9Hm3.take 32)
      = .ok c9Node3.privateKey := by decide
  have h := xprvDeriveChild_eq secpImpl c9Node2 (1) c9Pub2 c9Hm3 c9Node3.privateKey
    (by decide) hpub hdata hch
  rw [h]
  decide

theorem c9step4 : xprvDeriveChild secpImpl c9Node3 (hardened 2147483646) = .ok c9Node4 := by
  have hpub : secpImpl.publicKey c9Node3.privateKey = c9Pub3 := by decide
  have hdata : hmacSha512 c9Node3.attrs.chainCode
      ((if isHardened (hardened 2147483646) then 0 :: secpImpl.privToBytes c9Node3.privateKey
        else secpImpl.pubToBytes c9Pub3) ++ natToBeBytes 4 (hardened 2147483646)) = c9Hm4 := by decide
  have hch : secpImpl.privDeriveChild c9Node3.privateKey (c9Hm4.take 32)
      = .ok c9Node4.privateKey := by decide
  have h := xprvDeriveChild_eq secpImpl c9Node3 (hardened 2147483646) c9Pub3 c9Hm4 c9Node4.privateKey
    (by decide) hpub hdata hch
  rw [h]
  decide

theorem c9step5 : xprvDeriveChild secpImpl c9Node4 (2) = .ok c9Node5 := by
  have hpub : secpImpl.publicKey c9Node4.privateKey = c9Pub4 := by decide
  have hdata : hmacSha512 c9Node4.attrs.chainCode
      ((if isHardened (2) then 0 :: secpImpl.privToBytes c9Node4.privateKey
        else secpImpl.pubToBytes c9Pub4) ++ natToBeBytes 4 (2)) = c9Hm5 := by decide
  have hch : secpImpl.privDeriveChild c9Node4.privateKey (c9Hm5.take 32)
      = .ok c9Node5.privateKey := by decide
  have h := xprvDeriveChild_eq secpImpl c9Node4 (2) c9Pub4 c9Hm5 c9Node5.privateKey
    (by decide) hpub hdata hch
  rw [h]
  decide

theorem c9path_eq : deriveFromPath secpImpl c9Seed c9Path = .ok c9Node5 := by
  have hm : masterFromSeed secpImpl c9Seed = .ok c9Node0 := by decide
  simp only [c9Path, deriveFromPath, List.foldl, hm, c9step1, c9step2, c9step3, c9step4, c9step5]

theorem c9xprv_disp : xprvDisplay secpImpl c9Node5
    = "xprvA2nrNbFZABcdryreWet9Ea4LvTJcGsqrMzxHx98MMrotbir7yrKCEXw7nadnHM8Dq38EGfSh6dqA9QWTyefMLEcBYJUuekgW4BYPJcr9E7j" := by
  decide

theorem c9xpub_disp : xpubDisplay secpImpl (xprvPublicKey secpImpl c9Node5)
    = "xpub6FnCn6nSzZAw5Tw7cgR9bi15UV96gLZhjDstkXXxvCLsUXBGXPdSnLFbdpq8p9HmGsApME5hQTZ3emM2rnY5agb9rXpVGyy3bdW6EEgAtqt" := by
  have hpub : secpImpl.publicKey c9Node5.privateKey = c9Pub5 := by decide
  simp only [xprvPublicKey, hpub]
  decide

/-! ## BIP-39: strings, wordlist capability and the mnemonic codec.
Rust strings are embedded as `List Char`; the Rust standard-library string
methods the source uses (`split_whitespace`, `split(" ")`, `join(" ")`)
are modelled as the Lean functions below. -/

/-- A Rust string, embedded as its character list. -/

theorem bitsToNat_go (bs : List Bool) :
    ∀ a : Nat, bs.foldl (fun a b => 2 * a + cond b 1 0) a
      = a * 2 ^ bs.length + bs.foldl (fun a b => 2 * a + cond b 1 0) 0 := by
  induction bs with
  | nil => intro a; simp
  | cons b bs ih =>
    intro a
    simp only [List.foldl_cons]
    rw [ih, ih (2 * 0 + cond b 1 0), List.length_cons, pow_succ]
    ring

theorem bitsToNat_cons (b : Bool) (bs : List Bool) :
    bitsToNat (b :: bs) = cond b 1 0 * 2 ^ bs.length + bitsToNat bs := by
  simp only [bitsToNat, List.foldl_cons]
  rw [bitsToNat_go]
  ring

theorem bitsToNat_append (xs ys : List Bool) :
    bitsToNat (xs ++ ys) = bitsToNat xs * 2 ^ ys.length + bitsToNat ys := by
  simp only [bitsToNat, List.foldl_append]
  exact bitsToNat_go ys _

theorem bitsToNat_lt (bs : List Bool) : bitsToNat bs < 2 ^ bs.length := by
  induction bs with
  | nil => simp [bitsToNat]
  | cons b bs ih =>
    rw [bitsToNat_cons, List.length_cons, pow_succ]
    cases b <;> simp only [cond] <;> omega

theorem natBits_length (w x : Nat) : (natBits w x).length = w := by
  induction w generalizing x with
  | zero => rfl
  | succ w ih => simp [natBits, ih]

theorem bitsToNat_natBits (w x : Nat) : bitsToNat (natBits w x) = x % 2 ^ w := by
  induction w with
  | zero => simp [natBits, bitsToNat, Nat.mod_one]
  | succ w ih =>
    rw [natBits, bitsToNat_cons, natBits_length, ih, Nat.testBit_to_div_mod,
      Nat.pow_succ, Nat.mod_mul]
    rcases Nat.mod_two_eq_zero_or_one (x / 2 ^ w) with h | h <;> simp [h] <;> omega

theorem natBits_mod (w x : Nat) : natBits w (x % 2 ^ w) = natBits w x := by
  induction w generalizing x with
  | zero => rfl
  | succ w ih =>
    rw [natBits, natBits]
    have ht : (x % 2 ^ (w + 1)).testBit w = x.testBit w := by
      rw [Nat.testBit_mod_two_pow]
      simp
    have hm : x % 2 ^ (w + 1) % 2 ^ w = x % 2 ^ w :=
      Nat.mod_mod_of_dvd _ (pow_dvd_pow 2 (Nat.le_succ w))
    rw [ht, ← ih (x % 2 ^ (w + 1)), hm, ih]

theorem natBits_bitsToNat (bs : List Bool) : natBits bs.length (bitsToNat bs) = bs := by
  induction bs with
  | nil => rfl
  | cons b bs ih =>
    have hlt := bitsToNat_lt bs
    rw [List.length_cons, bitsToNat_cons, natBits]
    have hdiv : (cond b 1 0 * 2 ^ bs.length + bitsToNat bs) / 2 ^ bs.length = cond b 1 0 := by
      rw [Nat.mul_comm, Nat.mul_add_div (Nat.two_pow_pos _), Nat.div_eq_of_lt hlt,
        Nat.add_zero]
    have ht : (cond b 1 0 * 2 ^ bs.length + bitsToNat bs).testBit bs.length = b := by
      rw [Nat.testBit_to_div_mod, hdiv]
      cases b <;> simp
    have hm : (cond b 1 0 * 2 ^ bs.length + bitsToNat bs) % 2 ^ bs.length = bitsToNat bs := by
      rw [Nat.mul_comm, Nat.mul_add_mod, Nat.mod_eq_of_lt hlt]
    rw [ht, ← natBits_mod, hm, ih]

theorem bytesToBits_cons (b : Nat) (bs : List Nat) :
    bytesToBits (b :: bs) = natBits 8 b ++ bytesToBits bs := rfl

theorem bytesToBits_append (xs ys : List Nat) :
    bytesToBits (xs ++ ys) = bytesToBits xs ++ bytesToBits ys := by
  induction xs with
  | nil => rfl
  | cons b bs ih => simp [bytesToBits_cons, ih]

theorem bytesToBits_length (bs : List Nat) : (bytesToBits bs).length = 8 * bs.length := by
  induction bs with
  | nil => rfl
  | cons b bs ih =>
    rw [bytesToBits_cons, List.length_append, natBits_length, ih, List.length_cons]
    ring

theorem symbolsToBits_cons (s : Nat) (ws : List Nat) :
    symbolsToBits (s :: ws) = natBits 11 s ++ symbolsToBits ws := rfl

theorem symbolsToBits_length (ws : List Nat) : (symbolsToBits ws).length = 11 * ws.length := by
  induction ws with
  | nil => rfl
  | cons s ws ih =>
    rw [symbolsToBits_cons, List.length_append, natBits_length, ih, List.length_cons]
    ring

theorem chunksCount_length (k m : Nat) (bs : List Bool) :
    (chunksCount k m bs).length = m := by
  induction m generalizing bs with
  | zero => rfl
  | succ m ih => simp [chunksCount, ih]

theorem chunksCount_mem_length (k m : Nat) (bs : List Bool) (hk : 0 < k)
    (hm : k * m ≤ bs.length) :
    ∀ c ∈ chunksCount k m bs, c.length = k := by
  induction m generalizing bs with
  | zero => intro c hc; cases hc
  | succ m ih =>
    intro c hc
    rw [chunksCount] at hc
    rcases List.mem_cons.mp hc with hc | hc
    · subst hc
      rw [List.length_take]
      have : k ≤ bs.length := by
        calc k ≤ k * (m + 1) := Nat.le_mul_of_pos_right _ (Nat.succ_pos m)
        _ ≤ bs.length := hm
      omega
    · refine ih (bs.drop k) ?_ c hc
      rw [List.length_drop]
      have : k * (m + 1) = k * m + k := by ring
      omega

theorem chunksCount_flatten (k m : Nat) (bs : List Bool) (hm : k * m ≤ bs.length) :
    (chunksCount k m bs).flatten = bs.take (k * m) := by
  induction m generalizing bs with
  | zero => simp [chunksCount]
  | succ m ih =>
    rw [chunksCount, List.flatten_cons]
    have hlen : k * m ≤ (bs.drop k).length := by
      rw [List.length_drop]
      have : k * (m + 1) = k * m + k := by ring
      omega
    rw [ih (bs.drop k) hlen]
    have : k * (m + 1) = k + k * m := by ring
    rw [this, List.take_add]

theorem chunksPadCount_split (q : Nat) (U tail : List Bool)
    (hU : U.length = 8 * q) (ht0 : 0 < tail.length) (ht8 : tail.length ≤ 8) :
    chunksPadCount 8 (q + 1) (U ++ tail)
      = chunksCount 8 q U ++ [tail ++ List.replicate (8 - tail.length) false] := by
  induction q generalizing U with
  | zero =>
    have : U = [] := List.eq_nil_of_length_eq_zero (by omega)
    subst this
    rw [chunksPadCount, chunksPadCount, chunksCount]
    simp [List.take_of_length_le ht8, Nat.sub_eq_zero_of_le ht8]
  | succ q ih =>
    have h8 : 8 ≤ U.length := by omega
    rw [chunksPadCount, chunksCount]
    have htake : (U ++ tail).take 8 = U.take 8 := List.take_append_of_le_length h8
    have hdrop : (U ++ tail).drop 8 = U.drop 8 ++ tail := List.drop_append_of_le_length h8
    have hrep : 8 - (U ++ tail).length = 0 := by
      rw [List.length_append]
      omega
    rw [htake, hdrop, hrep, List.replicate_zero, List.append_nil]
    have hUd : (U.drop 8).length = 8 * q := by
      rw [List.length_drop]
      omega
    rw [ih (U.drop 8) hUd]
    simp

theorem chunksCount_bytes (E : List Nat) :
    chunksCount 8 E.length (bytesToBits E) = E.map (natBits 8) := by
  induction E with
  | nil => rfl
  | cons b bs ih =>
    rw [List.length_cons, bytesToBits_cons, chunksCount, List.map_cons]
    have hlen : (natBits 8 b).length = 8 := natBits_length 8 b
    have htake : (natBits 8 b ++ bytesToBits bs).take 8 = natBits 8 b := by
      rw [List.take_append_of_le_length (by omega), List.take_of_length_le (by omega)]
    have hdrop : (natBits 8 b ++ bytesToBits bs).drop 8 = bytesToBits bs := by
      rw [List.drop_append_of_le_length (by omega), List.drop_eq_nil_of_le (by omega),
        List.nil_append]
    rw [htake, hdrop, ih]

theorem map_bitsToNat_natBits8 (E : List Nat) (hE : ∀ b ∈ E, b < 256) :
    (E.map (natBits 8)).map bitsToNat = E := by
  rw [List.map_map]
  have : ∀ b ∈ E, (bitsToNat ∘ natBits 8) b = b := by
    intro b hb
    simp only [Function.comp_apply, bitsToNat_natBits]
    exact Nat.mod_eq_of_lt (by have := hE b hb; omega)
  calc E.map (bitsToNat ∘ natBits 8) = E.map id := List.map_congr_left this
  _ = E := List.map_id E

theorem getD_append_singleton (E : List Nat) (x d : Nat) :
    (E ++ [x]).getD E.length d = x := by
  induction E with
  | nil => rfl
  | cons b bs ih => simpa using ih

theorem getD_append_singleton_of_length (E : List Nat) (x d n : Nat)
    (h : E.length = n) : (E ++ [x]).getD n d = x := by
  rw [← h]
  exact getD_append_singleton E x d

theorem bitsToNat_append_replicate_false (bs : List Bool) (r : Nat) :
    bitsToNat (bs ++ List.replicate r false) = bitsToNat bs * 2 ^ r := by
  rw [bitsToNat_append, List.length_replicate]
  have : bitsToNat (List.replicate r false) = 0 := by
    induction r with
    | zero => rfl
    | succ r ih => rw [List.replicate_succ, bitsToNat_cons, ih]; simp
  rw [this, Nat.add_zero]

theorem natBits_take (w j x : Nat) (hj : j ≤ w) :
    (natBits w x).take j = natBits j (x / 2 ^ (w - j)) := by
  induction j generalizing w x with
  | zero => simp [natBits]
  | succ j ih =>
    cases w with
    | zero => omega
    | succ w =>
      have hj2 : j ≤ w := by omega
      have hsub : w + 1 - (j + 1) = w - j := by omega
      rw [hsub, natBits, List.take_succ_cons, ih w x hj2, natBits]
      have hhead : (x / 2 ^ (w - j)).testBit j = x.testBit w := by
        rw [Nat.testBit_to_div_mod, Nat.testBit_to_div_mod, Nat.div_div_eq_div_mul,
          ← pow_add, Nat.sub_add_cancel hj2]
      rw [hhead]

theorem natToBeBytes_mem_lt (k x : Nat) : ∀ b ∈ natToBeBytes k x, b < 256 := by
  induction k generalizing x with
  | zero => intro b hb; cases hb
  | succ k ih =>
    intro b hb
    rw [natToBeBytes] at hb
    rcases List.mem_cons.mp hb with hb | hb
    · subst hb
      exact Nat.mod_lt _ (by norm_num)
    · exact ih x b hb

theorem foldr_beBytes_mem_lt (ws : List Nat) :
    ∀ b ∈ ws.foldr (fun wd acc => natToBeBytes 4 wd ++ acc) [], b < 256 := by
  induction ws with
  | nil => intro b hb; cases hb
  | cons w ws ih =>
    intro b hb
    rw [List.foldr_cons] at hb
    rcases List.mem_append.mp hb with hb | hb
    · exact natToBeBytes_mem_lt 4 w b hb
    · exact ih b hb

theorem sha256_mem_lt (bytes : List Nat) : ∀ b ∈ sha256 bytes, b < 256 := by
  intro b hb
  simp only [sha256] at hb
  exact foldr_beBytes_mem_lt _ b hb

theorem sha256_first_byte_lt (bytes : List Nat) : sha256_first_byte bytes < 256 := by
  rw [sha256_first_byte]
  rcases h : sha256 bytes with _ | ⟨a, l⟩
  · norm_num [List.headD]
  · have : a ∈ sha256 bytes := by
      rw [h]
      exact List.mem_cons_self a l
    have := sha256_mem_lt bytes a this
    simpa [List.headD] using this

/-! ## Lemmas about the string splitting the mnemonic codec does -/

theorem joinWords_cons2 (w w2 : Str) (ws : List Str) :
    joinWords (w :: w2 :: ws) = w ++ ' ' :: joinWords (w2 :: ws) := rfl

theorem splitOnSpace_ne_nil (s : Str) : splitOnSpace s ≠ [] := by
  induction s with
  | nil => simp [splitOnSpace]
  | cons c rest ih =>
    rw [splitOnSpace]
    by_cases h : c = ' '
    · simp [h]
    · simp only [h, if_false]
      rcases heq : splitOnSpace rest with _ | ⟨g, gs⟩
      · simp
      · simp

theorem splitOnSpace_word (w : Str) (hw : ∀ c ∈ w, c ≠ ' ') :
    splitOnSpace w = [w] := by
  induction w with
  | nil => rfl
  | cons c rest ih =>
    have hc : c ≠ ' ' := hw c (List.mem_cons_self c rest)
    rw [splitOnSpace]
    simp only [hc, if_false]
    rw [ih (fun x hx => hw x (List.mem_cons_of_mem c hx))]

theorem splitOnSpace_append (w s : Str) (hw : ∀ c ∈ w, c ≠ ' ') :
    splitOnSpace (w ++ ' ' :: s) = w :: splitOnSpace s := by
  induction w with
  | nil => simp [splitOnSpace]
  | cons c rest ih =>
    have hc : c ≠ ' ' := hw c (List.mem_cons_self c rest)
    rw [List.cons_append, splitOnSpace]
    simp only [hc, if_false]
    rw [ih (fun x hx => hw x (List.mem_cons_of_mem c hx))]

theorem splitOnSpace_joinWords (ws : List Str) (hne : ws ≠ [])
    (hw : ∀ w ∈ ws, ∀ c ∈ w, c ≠ ' ') :
    splitOnSpace (joinWords ws) = ws := by
  induction ws with
  | nil => exact absurd rfl hne
  | cons w ws ih =>
    rcases ws with _ | ⟨w2, ws2⟩
    · rw [joinWords]
      exact splitOnSpace_word w (hw w (List.mem_cons_self w []))
    · rw [joinWords_cons2, splitOnSpace_append w _ (hw w (List.mem_cons_self w _))]
      rw [ih (by simp) (fun x hx => hw x (List.mem_cons_of_mem w hx))]

theorem splitOnWs_ne_nil (s : Str) : splitOnWs s ≠ [] := by
  induction s with
  | nil => simp [splitOnWs]
  | cons c rest ih =>
    rw [splitOnWs]
    by_cases h : c.isWhitespace
    · simp [h]
    · simp only [h, if_false]
      rcases heq : splitOnWs rest with _ | ⟨g, gs⟩
      · simp
      · simp

theorem splitOnWs_word (w : Str) (hw : ∀ c ∈ w, c.isWhitespace = false) :
    splitOnWs w = [w] := by
  induction w with
  | nil => rfl
  | cons c rest ih =>
    have hc := hw c (List.mem_cons_self c rest)
    rw [splitOnWs]
    simp only [hc, Bool.false_eq_true, if_false]
    rw [ih (fun x hx => hw x (List.mem_cons_of_mem c hx))]

theorem splitOnWs_append (w s : Str) (hw : ∀ c ∈ w, c.isWhitespace = false) :
    splitOnWs (w ++ ' ' :: s) = w :: splitOnWs s := by
  induction w with
  | nil =>
    rw [List.nil_append, splitOnWs]
    simp [Char.isWhitespace]
  | cons c rest ih =>
    have hc := hw c (List.mem_cons_self c rest)
    rw [List.cons_append, splitOnWs]
    simp only [hc, Bool.false_eq_true, if_false]
    rw [ih (fun x hx => hw x (List.mem_cons_of_mem c hx))]

theorem splitWhitespace_joinWords (ws : List Str)
    (hw : ∀ w ∈ ws, w ≠ [] ∧ ∀ c ∈ w, c.isWhitespace = false) :
    splitWhitespace (joinWords ws) = ws := by
  have key : ws ≠ [] → splitOnWs (joinWords ws) = ws := by
    intro hne
    induction ws with
    | nil => exact absurd rfl hne
    | cons w ws ih =>
      rcases ws with _ | ⟨w2, ws2⟩
      · rw [joinWords]
        exact splitOnWs_word w (hw w (List.mem_cons_self w [])).2
      · rw [joinWords_cons2, splitOnWs_append w _ (hw w (List.mem_cons_self w _)).2]
        rw [ih (fun x hx => hw x (List.mem_cons_of_mem w hx)) (by simp)]
  rcases heq : ws with _ | ⟨w, ws2⟩
  · rfl
  · rw [← heq, splitWhitespace, key (by rw [heq]; simp)]
    rw [List.filter_eq_self]
    intro a ha
    have := (hw a ha).1
    simpa [List.isEmpty_iff] using this

theorem splitWhitespace_members (s : Str) :
    ∀ t ∈ splitWhitespace s, t ≠ [] ∧ ∀ c ∈ t, c.isWhitespace = false := by
  have groups : ∀ g ∈ splitOnWs s, ∀ c ∈ g, c.isWhitespace = false := by
    induction s with
    | nil => intro g hg c hc; simp [splitOnWs] at hg; subst hg; cases hc
    | cons ch rest ih =>
      intro g hg c hc
      rw [splitOnWs] at hg
      by_cases h : ch.isWhitespace
      · simp only [h, if_true] at hg
        rcases List.mem_cons.mp hg with hg | hg
        · subst hg; cases hc
        · exact ih g hg c hc
      · simp only [h, Bool.false_eq_true, if_false] at hg
        rcases heq : splitOnWs rest with _ | ⟨g0, gs⟩
        · exact absurd heq (splitOnWs_ne_nil rest)
        · rw [heq] at hg
          rcases List.mem_cons.mp hg with hg | hg
          · subst hg
            rcases List.mem_cons.mp hc with hc | hc
            · subst hc; simpa using h
            · exact ih g0 (by rw [heq]; exact List.mem_cons_self g0 gs) c hc
          · exact ih g (by rw [heq]; exact List.mem_cons_of_mem g0 hg) c hc
  intro t ht
  rw [splitWhitespace, List.mem_filter] at ht
  refine ⟨by simpa [List.isEmpty_iff] using ht.2, groups t ht.1⟩

theorem lookupWords_map_get_word (wl : Wordlist) (hwf : wl.WF) (W : List Nat)
    (hW : ∀ s ∈ W, s < 2048) :
    lookupWords wl (W.map wl.get_word) = .ok W := by
  induction W with
  | nil => rfl
  | cons s W ih =>
    rw [List.map_cons, lookupWords, hwf.1 s (hW s (List.mem_cons_self s W))]
    rw [ih (fun x hx => hW x (List.mem_cons_of_mem s hx))]

theorem lookupWords_length (wl : Wordlist) (ws : List Str) (W : List Nat)
    (h : lookupWords wl ws = .ok W) : W.length = ws.length := by
  induction ws generalizing W with
  | nil =>
    rw [lookupWords] at h
    cases h
    rfl
  | cons w ws ih =>
    rw [lookupWords] at h
    rcases hb : wl.get_bits w with _ | b
    · rw [hb] at h; cases h
    · rw [hb] at h
      rcases hr : lookupWords wl ws with e | bs
      · rw [hr] at h; cases h
      · rw [hr] at h
        cases h
        simp [ih bs hr]

/-- Central evaluation of `phrase_to_entropy` at a phrase whose words all
resolve and whose count is one of the five standard ones: the result is
determined by comparing the trailing checksum bits of the symbol stream
with the top checksum bits of the SHA-256 byte of the decoded entropy. -/

theorem phrase_to_entropy_eval (wl : Wordlist) (phrase : Str) (W : List Nat)
    (t : MnemonicType)
    (hW : lookupWords wl (splitOnSpace phrase) = .ok W)
    (hfc : MnemonicType.for_word_count W.length = .ok t)
    (heq : 11 * W.length = 8 * (t.entropyBits / 8) + t.checksumBits)
    (hcs0 : 0 < t.checksumBits) (hcs8 : t.checksumBits ≤ 8) :
    phrase_to_entropy wl phrase =
      if bitsToNat ((symbolsToBits W).drop (8 * (t.entropyBits / 8)))
          ≠ checksum
              (sha256_first_byte ((intoBytes (symbolsToBits W)).take (t.entropyBits / 8)))
              t.checksumBits
      then .error .invalidChecksum
      else .ok ((intoBytes (symbolsToBits W)).take (t.entropyBits / 8)) := by
  have hlen11 : (symbolsToBits W).length = 11 * W.length := symbolsToBits_length W
  have hdiv : (symbolsToBits W).length / 11 = W.length := by
    rw [hlen11]
    exact Nat.mul_div_cancel_left _ (by norm_num)
  have hTlen : (symbolsToBits W).length = 8 * (t.entropyBits / 8) + t.checksumBits := by
    rw [hlen11, heq]
  have hcount : ((symbolsToBits W).length + 7) / 8 = t.entropyBits / 8 + 1 := by
    rw [hTlen]
    omega
  have hU : ((symbolsToBits W).take (8 * (t.entropyBits / 8))).length
      = 8 * (t.entropyBits / 8) := by
    rw [List.length_take]
    omega
  have htail_len : ((symbolsToBits W).drop (8 * (t.entropyBits / 8))).length
      = t.checksumBits := by
    rw [List.length_drop]
    omega
  have hbytes : intoBytes (symbolsToBits W)
      = (chunksCount 8 (t.entropyBits / 8)
          ((symbolsToBits W).take (8 * (t.entropyBits / 8)))).map bitsToNat
        ++ [bitsToNat ((symbolsToBits W).drop (8 * (t.entropyBits / 8))
              ++ List.replicate (8 - t.checksumBits) false)] := by
    rw [intoBytes, hcount]
    conv_lhs =>
      rw [← List.take_append_drop (8 * (t.entropyBits / 8)) (symbolsToBits W)]
    rw [chunksPadCount_split _ _ _ hU (by omega) (by omega), htail_len, List.map_append]
    rfl
  have hAlen : (((chunksCount 8 (t.entropyBits / 8)
      ((symbolsToBits W).take (8 * (t.entropyBits / 8)))).map bitsToNat)).length
      = t.entropyBits / 8 := by
    rw [List.length_map, chunksCount_length]
  have key : checksum ((intoBytes (symbolsToBits W)).getD (t.entropyBits / 8) 0)
        t.checksumBits
      = bitsToNat ((symbolsToBits W).drop (8 * (t.entropyBits / 8))) := by
    rw [hbytes, getD_append_singleton_of_length _ _ _ _ hAlen,
      bitsToNat_append_replicate_false]
    rw [checksum, Nat.mul_div_cancel _ (Nat.two_pow_pos _)]
  simp only [phrase_to_entropy, hW, hdiv, hfc, key]

theorem take_append_exact {α : Type} (A B : List α) (n : Nat) (h : A.length = n) :
    (A ++ B).take n = A := by
  rw [List.take_append_of_le_length (by omega), List.take_of_length_le (by omega)]

theorem drop_append_exact {α : Type} (A B : List α) (n : Nat) (h : A.length = n) :
    (A ++ B).drop n = B := by
  rw [List.drop_append_of_le_length (by omega), List.drop_eq_nil_of_le (by omega),
    List.nil_append]

theorem take_append_add {α : Type} (A B : List α) (n k : Nat) (h : A.length = n) :
    (A ++ B).take (n + k) = A ++ B.take k := by
  rw [List.take_add, take_append_exact A B n h]
  congr 1
  rw [drop_append_exact A B n h]

theorem symbolsToBits_map_bitsToNat (L : List (List Bool))
    (h : ∀ c ∈ L, c.length = 11) :
    symbolsToBits (L.map bitsToNat) = L.flatten := by
  induction L with
  | nil => rfl
  | cons c cs ih =>
    rw [List.map_cons, symbolsToBits_cons, List.flatten_cons,
      ih (fun x hx => h x (List.mem_cons_of_mem c hx))]
    congr 1
    rw [show (11 : Nat) = c.length from (h c (List.mem_cons_self c cs)).symm]
    exact natBits_bitsToNat c

theorem bitsEncode_mem_lt (bytes : List Nat) : ∀ s ∈ bitsEncode bytes, s < 2048 := by
  intro s hs
  simp only [bitsEncode, List.mem_map] at hs
  obtain ⟨c, hc, rfl⟩ := hs
  have hlen : c.length = 11 := by
    refine chunksCount_mem_length 11 _ _ (by norm_num) (by omega) c hc
  have := bitsToNat_lt c
  rw [hlen] at this
  exact lt_of_lt_of_eq this (by norm_num)

theorem symbolsToBits_bitsEncode (bytes : List Nat) :
    symbolsToBits (bitsEncode bytes)
      = (bytesToBits bytes).take (11 * ((bytesToBits bytes).length / 11)) := by
  have hle : 11 * ((bytesToBits bytes).length / 11) ≤ (bytesToBits bytes).length := by
    omega
  rw [bitsEncode]
  rw [symbolsToBits_map_bitsToNat _ (chunksCount_mem_length 11 _ _ (by norm_num) hle)]
  exact chunksCount_flatten 11 _ _ hle

theorem nfkd_map (ws : List Str) : ws.map nfkd = ws := by
  induction ws with
  | nil => rfl
  | cons w ws ih => rw [List.map_cons, ih]; rfl

/-- Core of the mnemonic round-trip, for one entropy length with its
arithmetic facts supplied. -/

theorem c1_core (wl : Wordlist) (hwf : wl.WF) (E : List Nat) (t : MnemonicType)
    (hE : ∀ b ∈ E, b < 256)
    (hks : MnemonicType.for_key_size (E.length * 8) = .ok t)
    (hfc : MnemonicType.for_word_count ((8 * (E.length + 1)) / 11) = .ok t)
    (heb : t.entropyBits / 8 = E.length)
    (hcount : 11 * ((8 * (E.length + 1)) / 11) = 8 * E.length + t.checksumBits)
    (hcs0 : 0 < t.checksumBits) (hcs8 : t.checksumBits ≤ 8) :
    from_entropy wl E = .ok (from_entropy_unchecked wl E) ∧
    from_phrase wl (from_entropy_unchecked wl E).phrase
      = .ok { phrase := (from_entropy_unchecked wl E).phrase, entropy := E } := by
  constructor
  · rw [from_entropy, hks]
  · have hphrase : (from_entropy_unchecked wl E).phrase
        = joinWords ((bitsEncode (E ++ [sha256_first_byte E])).map wl.get_word) := rfl
    set csb := sha256_first_byte E with hcsb
    set W := bitsEncode (E ++ [csb]) with hWdef
    set words := W.map wl.get_word with hwordsdef
    have hWlt : ∀ s ∈ W, s < 2048 := bitsEncode_mem_lt _
    have hwords_good : ∀ w ∈ words, w ≠ [] ∧ ∀ c ∈ w, c.isWhitespace = false := by
      intro w hw
      obtain ⟨s, hs, rfl⟩ := List.mem_map.mp hw
      exact hwf.2 s (hWlt s hs)
    have hsplitws : splitWhitespace (joinWords words) = words :=
      splitWhitespace_joinWords words hwords_good
    have hnospace : ∀ w ∈ words, ∀ c ∈ w, c ≠ ' ' := by
      intro w hw c hc hceq
      have hfalse := (hwords_good w hw).2 c hc
      have htrue : (' ' : Char).isWhitespace = true := by decide
      rw [hceq, htrue] at hfalse
      exact absurd hfalse (by decide)
    have hWlen : W.length = (8 * (E.length + 1)) / 11 := by
      rw [hWdef]
      simp only [bitsEncode]
      rw [List.length_map, chunksCount_length, bytesToBits_length, List.length_append,
        List.length_singleton]
    have hm_pos : 0 < W.length := by
      rw [hWlen]
      omega
    have hwords_ne : words ≠ [] := by
      rw [hwordsdef]
      apply List.ne_nil_of_length_pos
      rw [List.length_map]
      exact hm_pos
    have hsos : splitOnSpace (joinWords words) = words :=
      splitOnSpace_joinWords words hwords_ne hnospace
    have hlook : lookupWords wl words = .ok W := by
      rw [hwordsdef]
      exact lookupWords_map_get_word wl hwf W hWlt
    have hfcW : MnemonicType.for_word_count W.length = .ok t := by
      rw [hWlen]
      exact hfc
    have heqW : 11 * W.length = 8 * (t.entropyBits / 8) + t.checksumBits := by
      rw [hWlen, heb]
      exact hcount
    have heval := phrase_to_entropy_eval wl (joinWords words) W t
      (by rw [hsos]; exact hlook) hfcW heqW hcs0 hcs8
    have hS : bytesToBits (E ++ [csb]) = bytesToBits E ++ natBits 8 csb := by
      rw [bytesToBits_append]
      simp [bytesToBits_cons, bytesToBits]
    have hlenS : (bytesToBits (E ++ [csb])).length = 8 * (E.length + 1) := by
      rw [bytesToBits_length, List.length_append, List.length_singleton]
    have hT : symbolsToBits W = bytesToBits E ++ (natBits 8 csb).take t.checksumBits := by
      rw [hWdef, symbolsToBits_bitsEncode, hlenS, hcount, hS]
      exact take_append_add _ _ _ _ (by rw [bytesToBits_length])
    have hdropT : (symbolsToBits W).drop (8 * (t.entropyBits / 8))
        = (natBits 8 csb).take t.checksumBits := by
      rw [hT, heb]
      exact drop_append_exact _ _ _ (by rw [bytesToBits_length])
    have htake_val : bitsToNat ((natBits 8 csb).take t.checksumBits)
        = checksum csb t.checksumBits := by
      rw [natBits_take 8 _ _ hcs8, bitsToNat_natBits, checksum]
      apply Nat.mod_eq_of_lt
      have hcsb_lt : csb < 256 := sha256_first_byte_lt E
      have h28 : (2 : Nat) ^ t.checksumBits * 2 ^ (8 - t.checksumBits) = 256 := by
        rw [← pow_add]
        have hadd : t.checksumBits + (8 - t.checksumBits) = 8 := by omega
        rw [hadd]
        norm_num
      rw [Nat.div_lt_iff_lt_mul (Nat.two_pow_pos _), h28]
      exact hcsb_lt
    have hentropy : (intoBytes (symbolsToBits W)).take (t.entropyBits / 8) = E := by
      rw [hT]
      have htail0 : 0 < ((natBits 8 csb).take t.checksumBits).length := by
        rw [List.length_take, natBits_length]
        omega
      have htail8 : ((natBits 8 csb).take t.checksumBits).length ≤ 8 := by
        rw [List.length_take, natBits_length]
        omega
      have hcnt : ((bytesToBits E ++ (natBits 8 csb).take t.checksumBits).length + 7) / 8
          = E.length + 1 := by
        rw [List.length_append, bytesToBits_length, List.length_take, natBits_length]
        omega
      rw [intoBytes, hcnt,
        chunksPadCount_split E.length _ _ (by rw [bytesToBits_length]) htail0 htail8]
      rw [List.map_append, chunksCount_bytes, map_bitsToNat_natBits8 E hE, heb]
      exact take_append_exact _ _ _ rfl
    have hcond : bitsToNat ((symbolsToBits W).drop (8 * (t.entropyBits / 8)))
        = checksum
            (sha256_first_byte ((intoBytes (symbolsToBits W)).take (t.entropyBits / 8)))
            t.checksumBits := by
      rw [hdropT, htake_val, hentropy]
    rw [hcond] at heval
    rw [if_neg (by simp)] at heval
    rw [hentropy] at heval
    rw [hphrase]
    simp only [from_phrase, hsplitws, nfkd_map, heval]

/-! ## Engine-level lemmas -/

/-- Symbolic evaluation of one CKD-pub step. -/

theorem xpubDeriveChild_eq {S P : Type} (K : KeyImpl S P) (xp : ExtendedPublicKey P)
    (i : Nat) (hmv : List Nat) (child : P)
    (hi : isHardened i = false)
    (hd : xp.attrs.depth < 255)
    (hdata : hmacSha512 xp.attrs.chainCode
        (K.pubToBytes xp.publicKey ++ natToBeBytes 4 i) = hmv)
    (hch : K.pubDeriveChild xp.publicKey (hmv.take 32) = .ok child) :
    xpubDeriveChild K xp i = .ok
      { publicKey := child,
        attrs := { depth := xp.attrs.depth + 1,
                   parentFingerprint := fingerprint K xp.publicKey,
                   childNumber := i, chainCode := hmv.drop 32 } } := by
  simp only [xpubDeriveChild, hi, Bool.false_eq_true, if_false, hdata, hch]
  rw [if_neg (Nat.not_le.mpr hd)]

theorem isHardened_false_of_lt (i : Nat) (hi : i < 2147483648) :
    isHardened i = false := by
  simp only [isHardened, decide_eq_false_iff_not]
  omega

theorem isHardened_true_of_le (j : Nat) (hj : 2147483648 ≤ j) :
    isHardened j = true := by
  simp only [isHardened, decide_eq_true_eq]
  omega

/-- The discrete-logarithm model of the curve capability, used to witness
the generic derivation theorems: the group generated by the base point is
cyclic of order `n`, so it is isomorphic to addition modulo `n`; a public
key is modelled by the discrete logarithm itself. -/

theorem dlogImpl_law : ∀ s bytes c, dlogImpl.privDeriveChild s bytes = .ok c →
    dlogImpl.pubDeriveChild (dlogImpl.publicKey s) bytes = .ok (dlogImpl.publicKey c) := by
  intro s bytes c h
  exact h

/-- Inversion of a successful CKD-priv step. -/

theorem xprvDeriveChild_ok_inv {S P : Type} (K : KeyImpl S P)
    (x : ExtendedPrivateKey S) (i : Nat) (c : ExtendedPrivateKey S)
    (h : xprvDeriveChild K x i = .ok c) :
    x.attrs.depth < 255 ∧
    K.privDeriveChild x.privateKey
        ((hmacSha512 x.attrs.chainCode
          ((if isHardened i then 0 :: K.privToBytes x.privateKey
            else K.pubToBytes (K.publicKey x.privateKey)) ++ natToBeBytes 4 i)).take 32)
      = .ok c.privateKey ∧
    c.attrs = { depth := x.attrs.depth + 1,
                parentFingerprint := fingerprint K (K.publicKey x.privateKey),
                childNumber := i,
                chainCode := (hmacSha512 x.attrs.chainCode
                  ((if isHardened i then 0 :: K.privToBytes x.privateKey
                    else K.pubToBytes (K.publicKey x.privateKey))
                    ++ natToBeBytes 4 i)).drop 32 } := by
  simp only [xprvDeriveChild] at h
  split at h
  · cases h
  · split at h
    next cld heq =>
      cases h
      exact ⟨by omega, heq, rfl⟩
    next e heq => cases h
    next heq => cases h

/-- Inversion of a successful CKD-pub step. -/

theorem xpubDeriveChild_ok_inv {S P : Type} (K : KeyImpl S P)
    (xp : ExtendedPublicKey P) (j : Nat) (cp : ExtendedPublicKey P)
    (h : xpubDeriveChild K xp j = .ok cp) :
    xp.attrs.depth < 255 ∧
    K.pubDeriveChild xp.publicKey
        ((hmacSha512 xp.attrs.chainCode
          (K.pubToBytes xp.publicKey ++ natToBeBytes 4 j)).take 32)
      = .ok cp.publicKey ∧
    cp.attrs = { depth := xp.attrs.depth + 1,
                 parentFingerprint := fingerprint K xp.publicKey,
                 childNumber := j,
                 chainCode := (hmacSha512 xp.attrs.chainCode
                   (K.pubToBytes xp.publicKey ++ natToBeBytes 4 j)).drop 32 } := by
  simp only [xpubDeriveChild] at h
  split at h
  · cases h
  · split at h
    · cases h
    · split at h
      next cld heq =>
        cases h
        exact ⟨by omega, heq, rfl⟩
      next e heq => cases h
      next heq => cases h

/-- Claim C3 body (proved generically over the curve capability): for
non-hardened child numbers, public-of-derived equals derived-of-public,
and hardened derivation from a public key fails. -/

theorem spec_c3 {S P : Type} (K : KeyImpl S P)
    (hlaw : ∀ s bytes c, K.privDeriveChild s bytes = .ok c →
      K.pubDeriveChild (K.publicKey s) bytes = .ok (K.publicKey c))
    (x : ExtendedPrivateKey S) (i : Nat) (hi : i < 2147483648) :
    (∀ c, xprvDeriveChild K x i = .ok c →
      xpubDeriveChild K (xprvPublicKey K x) i = .ok (xprvPublicKey K c)) ∧
    (∀ j, 2147483648 ≤ j → ∀ xp : ExtendedPublicKey P,
      xpubDeriveChild K xp j = .fail .cannotDeriveFromHardenedChild) := by
  constructor
  · intro c hc
    have hih : isHardened i = false := isHardened_false_of_lt i hi
    obtain ⟨hd, hpriv, hattrs⟩ := xprvDeriveChild_ok_inv K x i c hc
    simp only [hih, Bool.false_eq_true, if_false] at hpriv hattrs
    have h := xpubDeriveChild_eq K (xprvPublicKey K x) i
      (hmacSha512 x.attrs.chainCode
        (K.pubToBytes (K.publicKey x.privateKey) ++ natToBeBytes 4 i))
      (K.publicKey c.privateKey) hih hd rfl (hlaw _ _ _ hpriv)
    rw [h]
    congr 1
    simp only [xprvPublicKey, hattrs]
  · intro j hj xp
    rw [xpubDeriveChild, isHardened_true_of_le j hj]
    rfl

/-- Claim C7 body: attributes of any successfully derived child node. -/

theorem spec_c7 {S P : Type} (K : KeyImpl S P)
    (x : ExtendedPrivateKey S) (xp : ExtendedPublicKey P) (i j : Nat)
    (c : ExtendedPrivateKey S) (cp : ExtendedPublicKey P)
    (h1 : xprvDeriveChild K x i = .ok c)
    (h2 : xpubDeriveChild K xp j = .ok cp) :
    (c.attrs.parentFingerprint
        = (ripemd160 (sha256 (K.pubToBytes (K.publicKey x.privateKey)))).take 4
      ∧ c.attrs.depth = x.attrs.depth + 1 ∧ c.attrs.childNumber = i) ∧
    (cp.attrs.parentFingerprint
        = (ripemd160 (sha256 (K.pubToBytes xp.publicKey))).take 4
      ∧ cp.attrs.depth = xp.attrs.depth + 1 ∧ cp.attrs.childNumber = j) := by
  obtain ⟨_, _, hattrs1⟩ := xprvDeriveChild_ok_inv K x i c h1
  obtain ⟨_, _, hattrs2⟩ := xpubDeriveChild_ok_inv K xp j cp h2
  rw [hattrs1, hattrs2]
  exact ⟨⟨rfl, rfl, rfl⟩, ⟨rfl, rfl, rfl⟩⟩

/-- Claim C2 body: the trait impls panic (modelled `.crash`) on an
invalid tweak instead of returning `Error::Crypto`; a zero child scalar
does surface as `Error::Crypto`. -/

theorem spec_c2_counterexample :
    secpSecretDeriveChild 1 (List.replicate 32 0) = .crash
    ∧ secpPublicDeriveChild { x := secpGx, y := secpGy } (List.replicate 32 0) = .crash
    ∧ secpSecretDeriveChild 1 (natToBeBytes 32 (secpN - 1)) = .fail .crypto := by
  exact ⟨by decide, by decide, by decide⟩

/-- Claim C5 body: mnemonic generation draws `entropy_bits/8` bytes from
the RNG, packs entropy then SHA-256 checksum byte into words, and fails
iff the RNG fails. -/

theorem spec_c5 (wl : Wordlist) (mtype : MnemonicType) :
    Mnemonic.new wl mtype Rng.failed = .error .rng ∧
    ∀ f : Nat → Nat, ∃ entropy : List Nat,
      gen_random_bytes (Rng.ok f) (mtype.entropyBits / 8) = .ok entropy
      ∧ entropy.length = mtype.entropyBits / 8
      ∧ Mnemonic.new wl mtype (Rng.ok f) = .ok (from_entropy_unchecked wl entropy)
      ∧ (from_entropy_unchecked wl entropy).phrase
          = joinWords
              ((bitsEncode (entropy ++ [sha256_first_byte entropy])).map wl.get_word)
      ∧ (from_entropy_unchecked wl entropy).entropy = entropy := by
  constructor
  · rfl
  · intro f
    refine ⟨(List.range (mtype.entropyBits / 8)).map (fun i => f i % 256),
      rfl, ?_, rfl, rfl, rfl⟩
    rw [List.length_map, List.length_range]

/-- The error type of the top-level library crate. -/

theorem spec_c10 (secret : Nat) (bytes : List Nat) :
    ((∃ v, ecdsa_sign secret bytes = .ok v) ↔ bytes.length = 32) ∧
    (∀ sig recid, ecdsa_sign secret bytes = .ok (sig, recid) → sig.length = 64) := by
  constructor
  · constructor
    · rintro ⟨v, hv⟩
      rw [ecdsa_sign, messageParseSlice] at hv
      by_cases h : bytes.length = 32
      · exact h
      · rw [if_neg h] at hv
        cases hv
    · intro h
      refine ⟨secpSign secret bytes, ?_⟩
      rw [ecdsa_sign, messageParseSlice, if_pos h]
  · intro sig recid h
    rw [ecdsa_sign, messageParseSlice] at h
    by_cases hl : bytes.length = 32
    · rw [if_pos hl] at h
      cases h
      simp [secpSign]
    · rw [if_neg hl] at h
      cases h

/-- A concrete well-formed wordlist for witnesses: word `i` is the 11-bit
binary rendering of `i` (the codec is parameterized over the wordlist
capability, spec section 9). -/

theorem binWordlist_wf : binWordlist.WF := by
  constructor
  · intro i hi
    have hcomp : ((fun c => c == '1') ∘ fun b : Bool => cond b '1' '0') = id := by
      funext b
      cases b <;> rfl
    have hcond : (((natBits 11 i).map (fun b => cond b '1' '0')).length == 11
        && ((natBits 11 i).map (fun b => cond b '1' '0')).all
             (fun c => c == '0' || c == '1')) = true := by
      rw [Bool.and_eq_true]
      constructor
      · rw [List.length_map, natBits_length]
        rfl
      · apply List.all_eq_true.mpr
        intro c hc
        obtain ⟨b, _, rfl⟩ := List.mem_map.mp hc
        cases b <;> rfl
    show binWordlist.get_bits (binWordlist.get_word i) = some i
    simp only [binWordlist]
    rw [if_pos hcond, List.map_map, hcomp, List.map_id, bitsToNat_natBits]
    rw [Nat.mod_eq_of_lt (lt_of_lt_of_eq hi (by norm_num))]
  · intro i hi
    constructor
    · show binWordlist.get_word i ≠ []
      simp only [binWordlist]
      apply List.ne_nil_of_length_pos
      rw [List.length_map, natBits_length]
      norm_num
    · intro c hc
      simp only [binWordlist] at hc
      obtain ⟨b, _, rfl⟩ := List.mem_map.mp hc
      cases b <;> decide

/-- Claim C1: the mnemonic round-trip.  For every entropy of one of the
five valid lengths, `from_entropy` succeeds and `from_phrase` of the
produced phrase succeeds and recovers exactly the entropy. -/

theorem spec_c1 (wl : Wordlist) (hwf : wl.WF) (E : List Nat)
    (hE : ∀ b ∈ E, b < 256)
    (hlen : E.length = 16 ∨ E.length = 20 ∨ E.length = 24 ∨ E.length = 28
      ∨ E.length = 32) :
    ∃ m m2 : Mnemonic, from_entropy wl E = .ok m
      ∧ from_phrase wl m.phrase = .ok m2 ∧ m2.entropy = E := by
  have finish : ∀ t : MnemonicType,
      MnemonicType.for_key_size (E.length * 8) = .ok t →
      MnemonicType.for_word_count ((8 * (E.length + 1)) / 11) = .ok t →
      t.entropyBits / 8 = E.length →
      11 * ((8 * (E.length + 1)) / 11) = 8 * E.length + t.checksumBits →
      0 < t.checksumBits → t.checksumBits ≤ 8 →
      ∃ m m2 : Mnemonic, from_entropy wl E = .ok m
        ∧ from_phrase wl m.phrase = .ok m2 ∧ m2.entropy = E := by
    intro t h1 h2 h3 h4 h5 h6
    obtain ⟨ha, hb⟩ := c1_core wl hwf E t hE h1 h2 h3 h4 h5 h6
    exact ⟨from_entropy_unchecked wl E, _, ha, hb, rfl⟩
  rcases hlen with h | h | h | h | h
  · exact finish .words12 (by rw [h]; rfl) (by rw [h]; rfl) (by rw [h]; rfl) (by rw [h]; decide)
      (by decide) (by decide)
  · exact finish .words15 (by rw [h]; rfl) (by rw [h]; rfl) (by rw [h]; rfl) (by rw [h]; decide)
      (by decide) (by decide)
  · exact finish .words18 (by rw [h]; rfl) (by rw [h]; rfl) (by rw [h]; rfl) (by rw [h]; decide)
      (by decide) (by decide)
  · exact finish .words21 (by rw [h]; rfl) (by rw [h]; rfl) (by rw [h]; rfl) (by rw [h]; decide)
      (by decide) (by decide)
  · exact finish .words24 (by rw [h]; rfl) (by rw [h]; rfl) (by rw [h]; rfl) (by rw [h]; decide)
      (by decide) (by decide)

theorem symbolsToBits_div11 (W : List Nat) :
    (symbolsToBits W).length / 11 = W.length := by
  rw [symbolsToBits_length]
  exact Nat.mul_div_cancel_left _ (by norm_num)

theorem for_word_count_error (n : Nat)
    (h : n ≠ 11 ∧ n ≠ 12 ∧ n ≠ 15 ∧ n ≠ 18 ∧ n ≠ 21 ∧ n ≠ 24) :
    MnemonicType.for_word_count n = .error .invalidWordCount := by
  obtain ⟨h11, h12, h15, h18, h21, h24⟩ := h
  rw [MnemonicType.for_word_count, if_neg h11, if_neg h12, if_neg h15, if_neg h18,
    if_neg h21, if_neg h24]

/-- Claim C4: `from_phrase` accepts exactly the word counts 11, 12, 15,
18, 21, 24 at the type-determination step, and any phrase of valid words
with another count fails with `InvalidWordCount`. -/

theorem spec_c4 (wl : Wordlist) (phrase : Str) (W : List Nat)
    (hW : lookupWords wl
        (splitOnSpace (joinWords ((splitWhitespace phrase).map nfkd))) = .ok W) :
    ((W.length = 11 ∨ W.length = 12 ∨ W.length = 15 ∨ W.length = 18
        ∨ W.length = 21 ∨ W.length = 24)
      → ∃ t, MnemonicType.for_word_count W.length = .ok t) ∧
    ((W.length ≠ 11 ∧ W.length ≠ 12 ∧ W.length ≠ 15 ∧ W.length ≠ 18
        ∧ W.length ≠ 21 ∧ W.length ≠ 24)
      → from_phrase wl phrase = .error .invalidWordCount) := by
  constructor
  · rintro (h | h | h | h | h | h) <;> rw [h] <;> exact ⟨_, rfl⟩
  · intro h
    simp only [from_phrase, phrase_to_entropy, hW, symbolsToBits_div11,
      for_word_count_error W.length h]

/-- Claim C6: for a phrase of valid words with one of the five standard
counts, `from_phrase` fails with `InvalidChecksum` exactly when the
trailing checksum bits of the symbol stream differ from the top
`checksum_bits` bits of the SHA-256 byte of the decoded entropy. -/

theorem spec_c6 (wl : Wordlist) (phrase : Str) (W : List Nat) (t : MnemonicType)
    (hW : lookupWords wl
        (splitOnSpace (joinWords ((splitWhitespace phrase).map nfkd))) = .ok W)
    (hn : W.length = 12 ∨ W.length = 15 ∨ W.length = 18 ∨ W.length = 21
      ∨ W.length = 24)
    (hfc : MnemonicType.for_word_count W.length = .ok t) :
    (from_phrase wl phrase = .error .invalidChecksum ↔
      bitsToNat ((symbolsToBits W).drop (8 * (t.entropyBits / 8)))
        ≠ checksum
            (sha256_first_byte
              ((intoBytes (symbolsToBits W)).take (t.entropyBits / 8)))
            t.checksumBits) := by
  have harith : 11 * W.length = 8 * (t.entropyBits / 8) + t.checksumBits
      ∧ 0 < t.checksumBits ∧ t.checksumBits ≤ 8 := by
    rcases hn with h | h | h | h | h <;> rw [h] at hfc ⊢ <;> cases hfc <;>
      exact ⟨by decide, by decide, by decide⟩
  obtain ⟨heq, hcs0, hcs8⟩ := harith
  have heval := phrase_to_entropy_eval wl
    (joinWords ((splitWhitespace phrase).map nfkd)) W t hW hfc heq hcs0 hcs8
  by_cases hc : bitsToNat ((symbolsToBits W).drop (8 * (t.entropyBits / 8)))
      ≠ checksum
          (sha256_first_byte
            ((intoBytes (symbolsToBits W)).take (t.entropyBits / 8)))
          t.checksumBits
  · rw [if_pos hc] at heval
    have hfp : from_phrase wl phrase = .error .invalidChecksum := by
      simp only [from_phrase, heval]
    rw [hfp]
    exact ⟨fun _ => hc, fun _ => rfl⟩
  · rw [if_neg hc] at heval
    have hfp : from_phrase wl phrase
        = .ok { phrase := joinWords ((splitWhitespace phrase).map nfkd),
                entropy := (intoBytes (symbolsToBits W)).take (t.entropyBits / 8) } := by
      simp only [from_phrase, heval]
    rw [hfp]
    constructor
    · intro h
      cases h
    · intro h
      exact absurd h hc

/-! ## Claim C8: whitespace-insensitivity of phrase parsing -/

/-- A whitespace run: every character is Unicode whitespace. -/

theorem goodPairs_cons2 (t r : Str) (p : Str × Str) (rest : List (Str × Str)) :
    goodPairs ((t, r) :: p :: rest)
      = (wsToken t && wsRun r && !r.isEmpty && goodPairs (p :: rest)) := rfl

theorem splitOnWs_wsFront (r s : Str) (hr : wsRun r = true) :
    splitOnWs (r ++ s) = List.replicate r.length [] ++ splitOnWs s := by
  induction r with
  | nil => rfl
  | cons c rest ih =>
    have hc : c.isWhitespace = true := by
      have := List.all_eq_true.mp hr c (List.mem_cons_self c rest)
      simpa using this
    rw [List.cons_append, splitOnWs, if_pos hc, List.length_cons, List.replicate_succ,
      List.cons_append]
    rw [ih (List.all_eq_true.mpr
      (fun x hx => List.all_eq_true.mp hr x (List.mem_cons_of_mem c hx)))]

theorem splitOnWs_tokenFront (t s : Str) (g : Str) (gs : List Str)
    (ht : ∀ c ∈ t, c.isWhitespace = false)
    (hs : splitOnWs s = g :: gs) :
    splitOnWs (t ++ s) = (t ++ g) :: gs := by
  induction t with
  | nil => simpa using hs
  | cons c rest ih =>
    have hc : c.isWhitespace = false := ht c (List.mem_cons_self c rest)
    rw [List.cons_append, splitOnWs]
    simp only [hc, Bool.false_eq_true, if_false]
    rw [ih (fun x hx => ht x (List.mem_cons_of_mem c hx))]
    rfl

theorem filter_empties (k : Nat) :
    (List.replicate k ([] : Str)).filter (fun t => ! t.isEmpty) = [] := by
  induction k with
  | zero => rfl
  | succ k ih => rw [List.replicate_succ, List.filter_cons]; simpa using ih

theorem splitWhitespace_ws (r : Str) (hr : wsRun r = true) :
    splitWhitespace r = [] := by
  rw [splitWhitespace]
  have : splitOnWs r = List.replicate r.length [] ++ [[]] := by
    conv_lhs => rw [← List.append_nil r]
    rw [splitOnWs_wsFront r [] hr]
    rfl
  rw [this, List.filter_append, filter_empties]
  rfl

theorem wsToken_props (t : Str) (h : wsToken t = true) :
    t ≠ [] ∧ ∀ c ∈ t, c.isWhitespace = false := by
  rw [wsToken, Bool.and_eq_true] at h
  constructor
  · intro hnil
    rw [hnil] at h
    simpa using h.1
  · intro c hc
    have := List.all_eq_true.mp h.2 c hc
    simpa using this

/-- Splitting off one token: a token followed by whitespace-or-nothing
contributes exactly itself. -/

theorem splitWhitespace_sep (lead t s : Str)
    (hl : wsRun lead = true) (ht : wsToken t = true)
    (hsep : s = [] ∨ ∃ c s2, s = c :: s2 ∧ c.isWhitespace = true) :
    splitWhitespace (lead ++ t ++ s) = t :: splitWhitespace s := by
  obtain ⟨htne, htws⟩ := wsToken_props t ht
  rcases hsep with rfl | ⟨c, s2, rfl, hc⟩
  · rw [List.append_nil, splitWhitespace, splitOnWs_wsFront lead t hl,
      splitOnWs_word t htws, List.filter_append, filter_empties, List.filter_cons]
    have : (! t.isEmpty) = true := by
      simpa [List.isEmpty_iff] using htne
    simp only [this, if_true]
    rw [splitWhitespace]
    rfl
  · have hsplit : splitOnWs (c :: s2) = [] :: splitOnWs s2 := by
      rw [splitOnWs, if_pos hc]
    rw [List.append_assoc, splitWhitespace, splitOnWs_wsFront lead _ hl,
      splitOnWs_tokenFront t (c :: s2) [] (splitOnWs s2) htws hsplit,
      List.filter_append, filter_empties, List.nil_append, List.append_nil,
      List.filter_cons]
    have : (! t.isEmpty) = true := by
      simpa [List.isEmpty_iff] using htne
    simp only [this, if_true]
    rw [splitWhitespace, hsplit, List.filter_cons]
    rfl

/-- The tokens of a well-formed interleaving are exactly its token list,
independent of the whitespace runs. -/

theorem splitWhitespace_wsInterleave (ps : List (Str × Str)) :
    ∀ lead : Str, goodPairs ps = true → wsRun lead = true →
      splitWhitespace (wsInterleave lead ps) = ps.map Prod.fst := by
  induction ps with
  | nil =>
    intro lead _ hl
    exact splitWhitespace_ws lead hl
  | cons p rest ih =>
    intro lead hg hl
    obtain ⟨t, r⟩ := p
    rcases rest with _ | ⟨p2, rest2⟩
    · rw [goodPairs, Bool.and_eq_true] at hg
      rw [wsInterleave, wsInterleave]
      have hsep : r = [] ∨ ∃ c s2, r = c :: s2 ∧ c.isWhitespace = true := by
        rcases r with _ | ⟨c, s2⟩
        · exact Or.inl rfl
        · refine Or.inr ⟨c, s2, rfl, ?_⟩
          have := List.all_eq_true.mp hg.2 c (List.mem_cons_self c s2)
          simpa using this
      rw [splitWhitespace_sep lead t r hl hg.1 hsep, splitWhitespace_ws r hg.2]
      rfl
    · rw [goodPairs_cons2, Bool.and_eq_true, Bool.and_eq_true, Bool.and_eq_true] at hg
      obtain ⟨⟨⟨ht, hr⟩, hrne⟩, hrest⟩ := hg
      rw [wsInterleave]
      have hrcons : ∃ c s2, r = c :: s2 ∧ c.isWhitespace = true := by
        rcases r with _ | ⟨c, s2⟩
        · simp [List.isEmpty] at hrne
        · refine ⟨c, s2, rfl, ?_⟩
          have := List.all_eq_true.mp hr c (List.mem_cons_self c s2)
          simpa using this
      obtain ⟨c, s2, hreq, hc⟩ := hrcons
      have hsep : wsInterleave r (p2 :: rest2) = []
          ∨ ∃ ch sh, wsInterleave r (p2 :: rest2) = ch :: sh ∧ ch.isWhitespace = true := by
        obtain ⟨t2, r2⟩ := p2
        rw [wsInterleave, hreq]
        exact Or.inr ⟨c, s2 ++ t2 ++ wsInterleave r2 rest2, by simp, hc⟩
      rw [splitWhitespace_sep lead t _ hl ht hsep, ih r hrest hr, List.map_cons]
      rfl

/-- Claim C8: two inputs made of the same word tokens separated by
arbitrary whitespace runs parse identically. -/

theorem spec_c8 (wl : Wordlist) (lead1 lead2 : Str)
    (ps1 ps2 : List (Str × Str))
    (h1 : goodPairs ps1 = true) (hl1 : wsRun lead1 = true)
    (h2 : goodPairs ps2 = true) (hl2 : wsRun lead2 = true)
    (htok : ps1.map Prod.fst = ps2.map Prod.fst) :
    from_phrase wl (wsInterleave lead1 ps1) = from_phrase wl (wsInterleave lead2 ps2) := by
  simp only [from_phrase, splitWhitespace_wsInterleave ps1 lead1 h1 hl1,
    splitWhitespace_wsInterleave ps2 lead2 h2 hl2, htok]

/-! ## Claim theorems and witnesses -/

/-- Claim C9: the BIP-32 deep-path test vector (spec scenario S3). -/

theorem spec_c9 :
    deriveFromPath secpImpl c9Seed c9Path = .ok c9Node5
    ∧ xprvDisplay secpImpl c9Node5
        = "xprvA2nrNbFZABcdryreWet9Ea4LvTJcGsqrMzxHx98MMrotbir7yrKCEXw7nadnHM8Dq38EGfSh6dqA9QWTyefMLEcBYJUuekgW4BYPJcr9E7j"
    ∧ xpubDisplay secpImpl (xprvPublicKey secpImpl c9Node5)
        = "xpub6FnCn6nSzZAw5Tw7cgR9bi15UV96gLZhjDstkXXxvCLsUXBGXPdSnLFbdpq8p9HmGsApME5hQTZ3emM2rnY5agb9rXpVGyy3bdW6EEgAtqt" :=
  ⟨c9path_eq, c9xprv_disp, c9xpub_disp⟩

/-- The entropy of spec scenario S1. -/

theorem spec_c1_witness :
    ∃ m m2 : Mnemonic, from_entropy binWordlist s1Entropy = .ok m
      ∧ from_phrase binWordlist m.phrase = .ok m2 ∧ m2.entropy = s1Entropy :=
  spec_c1 binWordlist binWordlist_wf s1Entropy (by decide) (by decide)

/-- A concrete master node for the discrete-log curve model. -/

theorem spec_c3_witness :
    xpubDeriveChild dlogImpl (xprvPublicKey dlogImpl dlogX0) 0
        = .ok (xprvPublicKey dlogImpl dlogChild0)
    ∧ xpubDeriveChild dlogImpl (xprvPublicKey dlogImpl dlogX0) (hardened 0)
        = .fail .cannotDeriveFromHardenedChild :=
  ⟨(spec_c3 dlogImpl dlogImpl_law dlogX0 0 (by decide)).1 dlogChild0 (by decide),
   (spec_c3 dlogImpl dlogImpl_law dlogX0 0 (by decide)).2 (hardened 0) (by decide) _⟩

/-- The extended public key of `dlogX0` derived at index 0. -/

theorem spec_c7_witness :
    (dlogChild0.attrs.parentFingerprint
        = (ripemd160 (sha256 (dlogImpl.pubToBytes
            (dlogImpl.publicKey dlogX0.privateKey)))).take 4
      ∧ dlogChild0.attrs.depth = dlogX0.attrs.depth + 1
      ∧ dlogChild0.attrs.childNumber = 0) ∧
    (dlogPubChild0.attrs.parentFingerprint
        = (ripemd160 (sha256 (dlogImpl.pubToBytes
            (xprvPublicKey dlogImpl dlogX0).publicKey))).take 4
      ∧ dlogPubChild0.attrs.depth = (xprvPublicKey dlogImpl dlogX0).attrs.depth + 1
      ∧ dlogPubChild0.attrs.childNumber = 0) :=
  spec_c7 dlogImpl dlogX0 (xprvPublicKey dlogImpl dlogX0) 0 0 dlogChild0 dlogPubChild0
    (by decide) (by decide)

/-- Thirteen valid words, an invalid word count. -/

theorem spec_c4_witness :
    from_phrase binWordlist c4Phrase = .error .invalidWordCount :=
  (spec_c4 binWordlist c4Phrase (List.replicate 13 0) (by decide)).2 (by decide)

/-- Twelve valid words whose trailing checksum bits are wrong. -/

theorem spec_c6_witness :
    from_phrase binWordlist c6Phrase = .error .invalidChecksum
      ↔ bitsToNat ((symbolsToBits (List.replicate 12 0)).drop
            (8 * (MnemonicType.words12.entropyBits / 8)))
        ≠ checksum
            (sha256_first_byte
              ((intoBytes (symbolsToBits (List.replicate 12 0))).take
                (MnemonicType.words12.entropyBits / 8)))
            MnemonicType.words12.checksumBits :=
  spec_c6 binWordlist c6Phrase (List.replicate 12 0) .words12 (by decide) (by decide) rfl

/-- Two spellings of the same two-token phrase with different whitespace. -/

theorem spec_c8_witness :
    from_phrase binWordlist (wsInterleave [] c8Ps1)
      = from_phrase binWordlist (wsInterleave [' '] c8Ps2) :=
  spec_c8 binWordlist [] [' '] c8Ps1 c8Ps2 (by decide) (by decide) (by decide)
    (by decide) (by decide)

end KmsSpec
